import Mathlib

/-!
Verification of the SciDocx2Web post-conversion HTML transformation pipeline.

The development shallowly embeds the conversion module
(`SciDocx2WebConversion.py`) and the conversion driver of the GUI module
(`SciDocx2WebUI.py`).  Text is modelled as `List Char` (Python strings),
document trees as `XNode` (the lxml element model: tag, ordered attributes,
leading text, ordered children, tail text), fallible operations return
`Except` or `Option`, and GUI warning dialogs are modelled as returned
warning lists.
-/

namespace SciDocx2Web

/-- Python strings are modelled as lists of characters. -/
abbrev Chars := List Char

/-- Coercion from Lean string literals to the character-list model. -/
def chars (s : String) : Chars := s.data

/-- Decimal rendering of a natural number, as in Python `str(i)`. -/
def natChars (n : Nat) : Chars := Nat.toDigits 10 n

/-- Python `str.isdigit()` restricted to ASCII digits: true on a non-empty
string all of whose characters are digits. -/
def pyIsDigit (s : Chars) : Bool := !s.isEmpty && s.all Char.isDigit

/-- Value of a digit string, as in Python `int(s)` for strings that satisfy
`isdigit`. -/
def digitsToNat (s : Chars) : Nat := s.foldl (fun a c => a * 10 + (c.toNat - 48)) 0

/-- Python substring test `pat in s` (also the XPath `contains` predicate). -/
def strContains : Chars → Chars → Bool
  | s, pat => if pat.isPrefixOf s then true
    else match s with
      | [] => false
      | _ :: rest => strContains rest pat

/-! ## C1: the conversion driver and the names the conversion module defines

`convertAndExport` in `SciDocx2WebUI.py` calls the stages of the pipeline in
a fixed order through the module alias `SciConvert`.  A stage call succeeds
only when the conversion module actually defines a function of that name;
calling a missing name raises an `AttributeError`, which aborts the driver
(unhandled) before any later stage runs. -/

/-- Function names defined at top level by `SciDocx2WebConversion.py`. -/
def conversionModuleDefs : List String :=
  ["style_map_func", "enclose_body", "create_footnotes_list",
   "abbreviate_footnotes", "add_wbr_footnotes", "insert_footnotes",
   "adjust_footnotes", "footnotes_bottom_adjust", "add_wbr_text",
   "add_Head_IDs", "remove_word_lnks", "create_navigation", "add_cite",
   "embed_images", "embed_videos", "embed_audio", "file_insertion_message",
   "move_table_caption", "page_breaks", "paragraph_numbering",
   "assemble_html", "escape_unescape", "write_html"]

/-- Stage calls of `convertAndExport` on the `SciConvert` module, in source
order (the `create_sections` call is commented out in the source). -/
def driverStages : List String :=
  ["style_map_func", "enclose_body", "create_footnotes_list",
   "abbreviate_footnotes", "add_wbr_footnotes", "insert_footnotes",
   "adjust_footnotes", "footnotes_bottom_adjust", "add_wbr_text",
   "add_Head_IDs", "remove_toc_and_head", "create_navigation", "add_cite",
   "embed_images", "embed_videos", "embed_audio", "file_insertion_message",
   "move_table_caption", "page_breaks", "paragraph_numbering",
   "assemble_html", "escape_unescape", "write_html"]

/-- Run the driver against a module: stages execute in order and accumulate,
until a stage name is not defined by the module, which raises a name-lookup
error; the remaining stages never run. -/
def runDriver (defs : List String) : List String → List String × Option String
  | [] => ([], none)
  | s :: rest =>
    if s ∈ defs then
      let r := runDriver defs rest
      (s :: r.fst, r.snd)
    else ([], some s)

/-- Stages the driver actually executes before stopping. -/
def driverExecuted : List String := (runDriver conversionModuleDefs driverStages).fst

/-- The name-lookup error the driver stops with, if any. -/
def driverError : Option String := (runDriver conversionModuleDefs driverStages).snd

/-! ## C2 / C6: footnote abbreviation -/

/-- Ellipsis marker appended by `abbreviate_footnotes`. -/
def abbrevMark : Chars := chars "[...]"

/-- Warning dialog title shown by `abbreviate_footnotes` on non-integer
input. -/
def abbrevWarning : Chars := chars "Tooltip abbreviation unsuccessful"

/-- Embedding of `abbreviate_footnotes`: when the threshold field is
non-empty and a digit string, every footnote longer than the threshold is cut
to the threshold and `"[...]"` is appended; when non-empty and not a digit
string, a single error dialog is shown and the list is returned unchanged;
when empty, the function is skipped.  The second component collects the
warning dialogs shown. -/
def abbreviate_footnotes (footnotes : List Chars) (abbreviateFootnotesNumber : Chars) :
    List Chars × List Chars :=
  if abbreviateFootnotesNumber ≠ [] then
    if pyIsDigit abbreviateFootnotesNumber then
      let k := digitsToNat abbreviateFootnotesNumber
      (footnotes.map (fun f => if k < f.length then f.take k ++ abbrevMark else f), [])
    else (footnotes, [abbrevWarning])
  else (footnotes, [])

/-! ## The document tree model

`lxml` elements are modelled as ordered trees: tag name, ordered attribute
list, leading text, ordered children, and tail text (the text following the
element inside its parent).  A mutual inductive is used so that all tree
functions are structurally recursive and kernel-reducible. -/

mutual
inductive XNode : Type where
  | elem (tag : Chars) (attrs : List (Chars × Chars)) (text : Chars)
         (children : XNodes) (tail : Chars)
inductive XNodes : Type where
  | nil
  | cons (head : XNode) (tail : XNodes)
end

/-- Build a child sequence from a list. -/
def xnodes : List XNode → XNodes
  | [] => .nil
  | n :: ns => .cons n (xnodes ns)

/-- Tag name of an element. -/
def XNode.tag : XNode → Chars
  | .elem t _ _ _ _ => t

/-- Attribute list of an element. -/
def XNode.attrs : XNode → List (Chars × Chars)
  | .elem _ a _ _ _ => a

/-- Leading text of an element. -/
def XNode.text : XNode → Chars
  | .elem _ _ tx _ _ => tx

/-- Children of an element. -/
def XNode.children : XNode → XNodes
  | .elem _ _ _ cs _ => cs

/-- Tail text of an element. -/
def XNode.tail : XNode → Chars
  | .elem _ _ _ _ tl => tl

/-- Children as a plain list. -/
def XNodes.toList : XNodes → List XNode
  | .nil => []
  | .cons c cs => c :: cs.toList

/-- True when a child sequence is empty. -/
def XNodes.isNil : XNodes → Bool
  | .nil => true
  | .cons _ _ => false

/-- Attribute lookup, first match as in lxml's attribute mapping. -/
def getAttr (n : XNode) (k : Chars) : Option Chars :=
  (n.attrs.find? (fun p => decide (p.fst = k))).map Prod.snd

/-- True when some direct child satisfies the predicate. -/
def anyChild (p : XNode → Bool) : XNodes → Bool
  | .nil => false
  | .cons c cs => p c || anyChild p cs

/-! ## String utilities shared by the passes -/

/-- First occurrence split: `splitFirst pat s = some (before, after)` when
`s = before ++ pat ++ after` at the first occurrence of `pat`. -/
def splitFirst (pat : Chars) : Chars → Option (Chars × Chars)
  | [] => if pat = [] then some ([], []) else none
  | c :: rest =>
    if pat.isPrefixOf (c :: rest) then some ([], (c :: rest).drop pat.length)
    else (splitFirst pat rest).map (fun p => (c :: p.fst, p.snd))

/-- Model of `re.sub(r' ↑', r'', s)` in `create_footnotes_list`: delete every
occurrence of the back-reference arrow (space + arrow). -/
def stripFootnoteArrow : Chars → Chars
  | [] => []
  | ' ' :: '↑' :: rest => stripFootnoteArrow rest
  | c :: rest => c :: stripFootnoteArrow rest

/-- Model of `re.sub(r'/', r'/<wbr>', s)`: a word-break opportunity tag after
every forward slash. -/
def addWbrSlashes : Chars → Chars
  | [] => []
  | '/' :: rest => '/' :: (chars "<wbr>" ++ addWbrSlashes rest)
  | c :: rest => c :: addWbrSlashes rest

/-! ## Serialization (model of `etree.tostring(..., encoding=unicode)`)

The serializer is the standard XML text form: attributes in order as
` key="value"`, `&`, `<`, `>` escaped in text and tails (plus `"` in
attribute values), an empty element (no text, no children) rendered
self-closing, and the element's tail appended after it.  This is the
non-pretty form the footnote and navigation passes call; the assembler's
`pretty_print=True` serialization is modelled separately as `prettyNode`
in the assembly section. -/

/-- Escape one character of element text. -/
def escTextChar (c : Char) : Chars :=
  if c = '&' then chars "&amp;"
  else if c = '<' then chars "&lt;"
  else if c = '>' then chars "&gt;"
  else [c]

/-- Escape element text. -/
def escText (s : Chars) : Chars := s.flatMap escTextChar

/-- Escape one character of an attribute value. -/
def escAttrChar (c : Char) : Chars :=
  if c = '&' then chars "&amp;"
  else if c = '<' then chars "&lt;"
  else if c = '>' then chars "&gt;"
  else if c = '"' then chars "&quot;"
  else [c]

/-- Escape an attribute value. -/
def escAttr (s : Chars) : Chars := s.flatMap escAttrChar

/-- Serialize an attribute list. -/
def serializeAttrs : List (Chars × Chars) → Chars
  | [] => []
  | (k, v) :: rest => (' ' :: k) ++ ('=' :: '"' :: escAttr v) ++ ('"' :: serializeAttrs rest)

mutual
/-- Serialize one element, including its tail, as `etree.tostring` does. -/
def serializeNode : XNode → Chars
  | .elem t a tx cs tl =>
    ('<' :: t ++ serializeAttrs a ++
      (if tx.isEmpty && cs.isNil then chars "/>"
       else '>' :: escText tx ++ serializeNodes cs ++ ('<' :: '/' :: t ++ ['>'])))
    ++ escText tl
/-- Serialize a sequence of siblings. -/
def serializeNodes : XNodes → Chars
  | .nil => []
  | .cons c cs => serializeNode c ++ serializeNodes cs
end

mutual
/-- Model of lxml `itertext()` on an element: its text, then each child's
collected text followed by the child's tail (the element's own tail is not
included). -/
def itertextOf : XNode → Chars
  | .elem _ _ tx cs _ => tx ++ itertextChildren cs
/-- Collected text of a child sequence. -/
def itertextChildren : XNodes → Chars
  | .nil => []
  | .cons c cs => itertextOf c ++ c.tail ++ itertextChildren cs
end

/-! ## Page breaks (`page_breaks`) -/

/-- Test for a page-break marker element: `sub` with `class="pagenumber"`,
the target of the XPath `.//sub[@class="pagenumber"]`. -/
def isPageMarkerTA (t : Chars) (a : List (Chars × Chars)) : Bool :=
  decide (t = chars "sub")
    && decide ((a.find? (fun p => decide (p.fst = chars "class"))).map Prod.snd
        = some (chars "pagenumber"))

/-- Marker test on a node. -/
def isPageMarker (n : XNode) : Bool := isPageMarkerTA n.tag n.attrs

mutual
/-- Texts of all page-break markers in a subtree, in document order. -/
def markerTextsOf : XNode → List Chars
  | .elem t a tx cs _ => (if isPageMarkerTA t a then [tx] else []) ++ markerTextsXs cs
/-- Texts of all page-break markers in a sibling sequence. -/
def markerTextsXs : XNodes → List Chars
  | .nil => []
  | .cons c cs => markerTextsOf c ++ markerTextsXs cs
end

/-- Page-number text: `'{' + str(i) + '}'` for a positive number, empty text
(invisible marker) for a non-positive one. -/
def renderPage (i : Int) : Chars :=
  if i ≤ 0 then [] else chars "\x7b" ++ natChars i.toNat ++ chars "\x7d"

mutual
/-- Number a subtree's page markers in document order starting at `i`, as in
the marker loop of `page_breaks`; returns the next counter value. -/
def assignMarkerOf (i : Int) : XNode → XNode × Int
  | .elem t a tx cs tl =>
    if isPageMarkerTA t a then
      let r := assignMarkersXs (i + 1) cs
      (.elem t a (renderPage i) r.fst tl, r.snd)
    else
      let r := assignMarkersXs i cs
      (.elem t a tx r.fst tl, r.snd)
/-- Number the markers of a sibling sequence. -/
def assignMarkersXs (i : Int) : XNodes → XNodes × Int
  | .nil => (.nil, i)
  | .cons c cs =>
    let r := assignMarkerOf i c
    let r2 := assignMarkersXs r.snd cs
    (.cons r.fst r2.fst, r2.snd)
end

mutual
/-- Clear the text of every page marker in a subtree (the non-numeric and
disabled branches of `page_breaks`). -/
def clearMarkerOf : XNode → XNode
  | .elem t a tx cs tl =>
    .elem t a (if isPageMarkerTA t a then [] else tx) (clearMarkersXs cs) tl
/-- Clear the markers of a sibling sequence. -/
def clearMarkersXs : XNodes → XNodes
  | .nil => .nil
  | .cons c cs => .cons (clearMarkerOf c) (clearMarkersXs cs)
end

/-- The synthesized marker `<sub class="pagenumber"/>` placed at the start of
the document. -/
def pageSub : XNode := .elem (chars "sub") [(chars "class", chars "pagenumber")] [] .nil []

/-- Prepend a child at position 0 (`insert(0, ...)`). -/
def prependChild (c : XNode) : XNode → XNode
  | .elem t a tx cs tl => .elem t a tx (.cons c cs) tl

/-- Insertion point of the synthesized marker: `bodyxml[0].insert(0, pageSub)`
in body-only mode, `bodyxml[1][0][0].insert(0, pageSub)` otherwise; `none`
models the `IndexError` when the indexed children do not exist. -/
def insertPageSub (bodyCheckVar : Bool) : XNode → Option XNode
  | .elem t a tx cs tl =>
    if bodyCheckVar then
      match cs with
      | .cons c0 rest => some (.elem t a tx (.cons (prependChild pageSub c0) rest) tl)
      | .nil => none
    else
      match cs with
      | .cons c0 (.cons (.elem t1 a1 tx1 (.cons (.elem t2 a2 tx2
          (.cons e0 erest) tl2) drest) tl1) rest) =>
        some (.elem t a tx (.cons c0 (.cons (.elem t1 a1 tx1 (.cons (.elem t2 a2 tx2
          (.cons (prependChild pageSub e0) erest) tl2) drest) tl1) rest)) tl)
      | _ => none

/-- Number the markers below the root (the XPath is `.//`, so the root itself
is not a candidate). -/
def assignRoot (i : Int) : XNode → XNode
  | .elem t a tx cs tl => .elem t a tx (assignMarkersXs i cs).fst tl

/-- Clear the markers below the root. -/
def clearRoot : XNode → XNode
  | .elem t a tx cs tl => .elem t a tx (clearMarkersXs cs) tl

/-- Warning dialog title of the non-numeric branch of `page_breaks`. -/
def pageWarning : Chars := chars "Page number insertion unsuccessful"

/-- Embedding of `page_breaks`.  With page numbers enabled and a non-empty
start-page entry, the synthesized marker is inserted at the document start;
then a digit-string entry numbers all markers in document order starting from
`2 - start`, while any other entry shows one error dialog and clears every
marker.  With page numbers disabled (or an empty entry), all markers are
cleared.  The warning dialogs shown are returned alongside the tree. -/
def page_breaks (pageNumberCheckVar : Bool) (pageNumberStartCheckVar : Chars)
    (bodyxml : XNode) (bodyCheckVar : Bool) : Except Chars (XNode × List Chars) :=
  if pageNumberCheckVar && !pageNumberStartCheckVar.isEmpty then
    match insertPageSub bodyCheckVar bodyxml with
    | none => .error (chars "IndexError")
    | some root2 =>
      if pyIsDigit pageNumberStartCheckVar then
        .ok (assignRoot ((2 : Int) - (digitsToNat pageNumberStartCheckVar : Int)) root2, [])
      else
        .ok (clearRoot root2, [pageWarning])
  else .ok (clearRoot bodyxml, [])

/-! ### Theorems for C1 -/

/-- C1: every run of the conversion driver fails by name lookup.  The driver
executes exactly the stages through heading-ID assignment (`add_Head_IDs`),
stops with a name-lookup error on `remove_toc_and_head` (the conversion
module defines that pass only as `remove_word_lnks`), and never reaches the
navigation, media, pagination, assembly, or file-writing stages. -/
theorem driver_always_fails_on_remove_toc_and_head :
    driverError = some "remove_toc_and_head"
    ∧ driverExecuted =
      ["style_map_func", "enclose_body", "create_footnotes_list",
       "abbreviate_footnotes", "add_wbr_footnotes", "insert_footnotes",
       "adjust_footnotes", "footnotes_bottom_adjust", "add_wbr_text",
       "add_Head_IDs"]
    ∧ "remove_word_lnks" ∈ conversionModuleDefs
    ∧ "remove_toc_and_head" ∉ conversionModuleDefs
    ∧ "add_Head_IDs" ∈ driverExecuted
    ∧ "create_navigation" ∉ driverExecuted
    ∧ "embed_images" ∉ driverExecuted
    ∧ "page_breaks" ∉ driverExecuted
    ∧ "assemble_html" ∉ driverExecuted
    ∧ "write_html" ∉ driverExecuted := by
  decide

/-! ### Marker numbering lemmas -/

mutual
/-- Numbering a subtree's markers from `i` yields the rendered page numbers
`i, i+1, ...` in document order, and advances the counter by the marker
count. -/
theorem assign_texts_of : ∀ (i : Int) (n : XNode),
    markerTextsOf (assignMarkerOf i n).fst
      = (List.range (markerTextsOf n).length).map (fun k : Nat => renderPage (i + (k : Int)))
    ∧ (assignMarkerOf i n).snd = i + ((markerTextsOf n).length : Int)
  | i, .elem t a tx cs tl => by
    by_cases h : isPageMarkerTA t a
    · have ih := assign_texts_xs (i + 1) cs
      simp only [assignMarkerOf, h, if_true, markerTextsOf, List.singleton_append,
        List.length_cons]
      refine ⟨?_, ?_⟩
      · rw [ih.1, List.range_succ_eq_map, List.map_cons, List.map_map]
        congr 1
        · simp
        · apply List.map_congr_left
          intro k _
          simp only [Function.comp_apply, Nat.succ_eq_add_one]
          congr 1
          push_cast
          ring
      · rw [ih.2]
        push_cast
        ring
    · have ih := assign_texts_xs i cs
      simp only [assignMarkerOf, h, if_false, markerTextsOf]
      simpa [h] using ih
/-- Numbering the markers of a sibling sequence from `i`. -/
theorem assign_texts_xs : ∀ (i : Int) (ns : XNodes),
    markerTextsXs (assignMarkersXs i ns).fst
      = (List.range (markerTextsXs ns).length).map (fun k : Nat => renderPage (i + (k : Int)))
    ∧ (assignMarkersXs i ns).snd = i + ((markerTextsXs ns).length : Int)
  | i, .nil => by simp [assignMarkersXs, markerTextsXs]
  | i, .cons c cs => by
    have ih1 := assign_texts_of i c
    have ih2 := assign_texts_xs ((assignMarkerOf i c).snd) cs
    simp only [assignMarkersXs, markerTextsXs]
    refine ⟨?_, ?_⟩
    · rw [ih1.1, ih2.1, ih1.2, List.length_append, List.range_add, List.map_append,
        List.map_map]
      congr 1
      apply List.map_congr_left
      intro k _
      simp only [Function.comp_apply]
      congr 1
      push_cast
      ring
    · rw [ih2.2, ih1.2, List.length_append]
      push_cast
      ring
end

mutual
/-- Clearing a subtree's markers empties every marker text. -/
theorem clear_texts_of : ∀ n : XNode,
    markerTextsOf (clearMarkerOf n) = List.replicate (markerTextsOf n).length []
  | .elem t a tx cs tl => by
    have ih := clear_texts_xs cs
    by_cases h : isPageMarkerTA t a
    · simp [clearMarkerOf, markerTextsOf, h, ih, List.replicate_succ]
    · simp [clearMarkerOf, markerTextsOf, h, ih]
/-- Clearing the markers of a sibling sequence. -/
theorem clear_texts_xs : ∀ ns : XNodes,
    markerTextsXs (clearMarkersXs ns) = List.replicate (markerTextsXs ns).length []
  | .nil => by simp [clearMarkersXs, markerTextsXs]
  | .cons c cs => by
    have ih1 := clear_texts_of c
    have ih2 := clear_texts_xs cs
    rw [markerTextsXs, List.length_append, List.replicate_add]
    rw [clearMarkersXs, markerTextsXs, ih1, ih2]
end

/-! ### Theorems for C3 and C7 -/

/-- C3: with page numbers enabled and a digit-string start page of value `P`,
`page_breaks` synthesizes one extra marker at the document start and the k-th
marker in document order (k from 0) renders as the page number `2 - P + k`
(the text `{2-P+k}` when positive, empty when non-positive).  In particular
the synthesized first marker renders `{1}` for `P = 1` and empty for `P = 2`,
and for `P = 2` the following marker renders `{1}`. -/
theorem page_breaks_numbering (ps : Chars) (P : Nat)
    (hdig : pyIsDigit ps = true) (hP : digitsToNat ps = P)
    (bt gt : Chars) (ba ga : List (Chars × Chars)) (btx gtx btl gtl : Chars)
    (gcs : XNodes) (hg : isPageMarkerTA gt ga = false) :
    (page_breaks true ps (.elem bt ba btx (.cons (.elem gt ga gtx gcs gtl) .nil) btl) true).map
        (fun r => markerTextsXs r.fst.children)
      = .ok ((List.range ((markerTextsXs gcs).length + 1)).map
          (fun k : Nat => renderPage (2 - (P : Int) + (k : Int))))
    ∧ (P = 1 →
        (page_breaks true ps (.elem bt ba btx (.cons (.elem gt ga gtx gcs gtl) .nil) btl) true).map
          (fun r => (markerTextsXs r.fst.children).head?) = .ok (some (chars "\x7b1\x7d")))
    ∧ (P = 2 →
        (page_breaks true ps (.elem bt ba btx (.cons (.elem gt ga gtx gcs gtl) .nil) btl) true).map
          (fun r => (markerTextsXs r.fst.children).head?) = .ok (some [])
        ∧ (1 ≤ (markerTextsXs gcs).length →
          (page_breaks true ps (.elem bt ba btx (.cons (.elem gt ga gtx gcs gtl) .nil) btl) true).map
            (fun r => (markerTextsXs r.fst.children)[1]?) = .ok (some (chars "\x7b1\x7d")))) := by
  have hne : ps.isEmpty = false := by
    unfold pyIsDigit at hdig
    rw [Bool.and_eq_true] at hdig
    simpa using hdig.1
  have hpageSub : isPageMarkerTA (chars "sub") [(chars "class", chars "pagenumber")] = true := by
    decide
  have hmain : page_breaks true ps
      (.elem bt ba btx (.cons (.elem gt ga gtx gcs gtl) .nil) btl) true
      = .ok (assignRoot ((2 : Int) - (P : Int))
          (.elem bt ba btx
            (.cons (.elem gt ga gtx (.cons pageSub gcs) gtl) .nil) btl), []) := by
    simp [page_breaks, hne, hdig, hP, insertPageSub, prependChild]
  have htexts : markerTextsXs (assignRoot ((2 : Int) - (P : Int))
      (.elem bt ba btx (.cons (.elem gt ga gtx (.cons pageSub gcs) gtl) .nil) btl)).children
      = (List.range ((markerTextsXs gcs).length + 1)).map
          (fun k : Nat => renderPage (2 - (P : Int) + (k : Int))) := by
    have h1 := assign_texts_xs ((2 : Int) - (P : Int))
      (.cons (.elem gt ga gtx (.cons pageSub gcs) gtl) .nil)
    have h2 : markerTextsXs (.cons (.elem gt ga gtx (.cons pageSub gcs) gtl) .nil)
        = [] :: markerTextsXs gcs := by
      simp only [markerTextsXs, markerTextsOf, pageSub, hg, hpageSub, if_true,
        Bool.false_eq_true, if_false]
      simp
    simp only [assignRoot, XNode.children]
    rw [h1.1, h2]
    simp
  refine ⟨?_, ?_, ?_⟩
  · rw [hmain]
    simp only [Except.map]
    rw [htexts]
  · intro hp1
    rw [hmain]
    simp only [Except.map]
    rw [htexts]
    subst hp1
    rw [List.range_succ_eq_map]
    rfl
  · intro hp2
    subst hp2
    constructor
    · rw [hmain]
      simp only [Except.map]
      rw [htexts]
      rw [List.range_succ_eq_map]
      rfl
    · intro hlen
      rw [hmain]
      simp only [Except.map]
      rw [htexts]
      rw [List.getElem?_map, List.getElem?_range (by omega)]
      rfl

/-- Concrete page-break marker used by witnesses. -/
def sampleMarker : XNode :=
  .elem (chars "sub") [(chars "class", chars "pagenumber")]
    (chars "NEW_PAGE_BEGINNING!") .nil []

/-- Concrete body-only document with one real page marker. -/
def sampleDoc : XNode :=
  .elem (chars "body") [] []
    (.cons (.elem (chars "div") [] [] (.cons sampleMarker .nil) []) .nil) []

/-- The document `sampleDoc` after the synthesized marker is inserted. -/
def sampleDocIns : XNode :=
  .elem (chars "body") [] []
    (.cons (.elem (chars "div") [] [] (.cons pageSub (.cons sampleMarker .nil)) []) .nil) []

/-- Witness for `page_breaks_numbering`: `sampleDoc` with start page "2"; the
synthesized marker renders empty and the real one renders `{1}`. -/
theorem page_breaks_numbering_witness :
    (page_breaks true (chars "2") sampleDoc true).map
        (fun r => markerTextsXs r.fst.children)
      = .ok ((List.range ((markerTextsXs (.cons sampleMarker .nil)).length + 1)).map
          (fun k : Nat => renderPage (2 - ((2 : Nat) : Int) + (k : Int)))) :=
  (page_breaks_numbering (chars "2") 2 (by decide) (by decide)
    (chars "body") (chars "div") [] [] [] [] [] []
    (.cons sampleMarker .nil) (by decide)).1

/-- C7: with page numbers enabled and a non-empty start-page entry that is
not a digit string, `page_breaks` shows exactly one error dialog, clears the
text of every page marker (including the synthesized one) to empty, and
returns normally, so the pipeline continues and still produces output. -/
theorem page_breaks_nonnumeric (ps : Chars) (hps : ps ≠ [])
    (hnd : pyIsDigit ps = false) (bc : Bool) (root root2 : XNode)
    (hins : insertPageSub bc root = some root2) :
    page_breaks true ps root bc = .ok (clearRoot root2, [pageWarning])
    ∧ markerTextsXs (clearRoot root2).children
      = List.replicate (markerTextsXs root2.children).length [] := by
  have hne : ps.isEmpty = false := by
    cases ps with
    | nil => exact absurd rfl hps
    | cons c rest => rfl
  constructor
  · simp [page_breaks, hne, hins, hnd]
  · cases root2 with
    | elem t a tx cs tl => simpa [clearRoot] using clear_texts_xs cs

/-- Witness for `page_breaks_nonnumeric`: start page "abc" on `sampleDoc`;
one warning, and both markers (synthesized and real) are cleared. -/
theorem page_breaks_nonnumeric_witness :
    page_breaks true (chars "abc") sampleDoc true
      = .ok (clearRoot sampleDocIns, [pageWarning])
    ∧ markerTextsXs (clearRoot sampleDocIns).children
      = List.replicate (markerTextsXs sampleDocIns.children).length [] :=
  page_breaks_nonnumeric (chars "abc") (by decide) (by decide) true
    sampleDoc sampleDocIns rfl

/-! ## Table captions (`move_table_caption`) -/

mutual
/-- Process one element for `move_table_caption`: its children are walked in
order (see `moveCaptionGo`). -/
def moveCaptionOf : XNode → Except Chars XNode
  | .elem t a tx cs tl =>
    match moveCaptionGo [] cs with
    | .error e => .error e
    | .ok cs2 => .ok (.elem t a tx (xnodes cs2) tl)
/-- Walk a sibling list left to right, `prev` holding the already-processed
previous siblings in reverse.  A caption whose previous sibling is a table is
moved to be that table's first child; a caption with no previous sibling at
all makes `node.getprevious().tag` raise (`getprevious()` is `None`); a
caption whose previous sibling is not a table stays in place. -/
def moveCaptionGo : List XNode → XNodes → Except Chars (List XNode)
  | prev, .nil => .ok prev.reverse
  | prev, .cons c rest =>
    match moveCaptionOf c with
    | .error e => .error e
    | .ok c2 =>
      if c2.tag = chars "caption" then
        match prev with
        | [] => .error (chars "AttributeError")
        | p :: ps =>
          if p.tag = chars "table" then moveCaptionGo (prependChild c2 p :: ps) rest
          else moveCaptionGo (c2 :: prev) rest
      else moveCaptionGo (c2 :: prev) rest
end

/-- Embedding of `move_table_caption`: every caption found by `//caption` has
`getprevious().tag` inspected, so a caption that is the first child of its
parent (or the root itself) raises an `AttributeError`; a caption directly
after a table is moved to the table's first-child position. -/
def move_table_caption (root : XNode) : Except Chars XNode :=
  if root.tag = chars "caption" then .error (chars "AttributeError")
  else moveCaptionOf root

/-! ### Theorem for C8 -/

/-- C8: the relocation crashes instead of skipping when a caption has no
preceding sibling.  First conjunct: a document whose first element is a
caption raises an `AttributeError` (the code calls `.tag` on the `None`
returned by `getprevious()`), contradicting the claim that such captions are
left in place without error.  Second conjunct: the in-spec case works — a
caption directly after a table becomes the table's first child. -/
theorem move_table_caption_attribute_error :
    move_table_caption (.elem (chars "body") [] []
      (.cons (.elem (chars "caption") [] (chars "Table 1.") .nil []) .nil) [])
      = .error (chars "AttributeError")
    ∧ move_table_caption (.elem (chars "body") [] []
        (.cons (.elem (chars "table") [] [] .nil [])
          (.cons (.elem (chars "caption") [] (chars "Table 1.") .nil []) .nil)) [])
      = .ok (.elem (chars "body") [] []
          (.cons (.elem (chars "table") [] []
            (.cons (.elem (chars "caption") [] (chars "Table 1.") .nil []) .nil) [])
            .nil) []) :=
  ⟨rfl, rfl⟩

/-! ## Navigation (`create_navigation` and the GUI flag wiring) -/

/-- Replace every occurrence of `pat` (non-empty) by `repl`, left to right,
as `re.sub` with a literal pattern does. -/
def replaceAllSub (pat repl : Chars) : Chars → Chars
  | [] => []
  | c :: rest =>
    if h : pat ≠ [] ∧ pat.isPrefixOf (c :: rest) then
      repl ++ replaceAllSub pat repl ((c :: rest).drop pat.length)
    else c :: replaceAllSub pat repl rest
termination_by s => s.length
decreasing_by
  · simp only [List.length_drop, List.length_cons]
    have hp : 0 < pat.length := List.length_pos.mpr h.1
    omega
  · simp only [List.length_cons]
    omega

/-- Strip the first wrapper `openStart...>` ... `closeTag` from a serialized
heading, keeping the middle, as the `(<hN .*?>)(.*?)(</hN>)` substitutions in
`create_navigation` do. -/
def stripWrap (openStart closeTag : Chars) (s : Chars) : Chars :=
  match splitFirst openStart s with
  | none => s
  | some (pre, afterOpen) =>
    match splitFirst (chars ">") afterOpen with
    | none => s
    | some (_, inner) =>
      match splitFirst closeTag inner with
      | none => s
      | some (mid, post) => pre ++ mid ++ post

/-- The literal page marker removed from navigation texts. -/
def pageMarkerLit : Chars := chars "<sub class=\"pagenumber\">NEW_PAGE_BEGINNING!</sub>"

/-- Visible text of a navigation item: the serialized heading with its
h1/h2/h3 wrapper stripped and page markers removed. -/
def headingNavText (n : XNode) : Chars :=
  replaceAllSub pageMarkerLit []
    (stripWrap (chars "<h3 ") (chars "</h3>")
      (stripWrap (chars "<h2 ") (chars "</h2>")
        (stripWrap (chars "<h1 ") (chars "</h1>") (serializeNode n))))

/-- Append children at the end (`append`). -/
def appendChildren (n : XNode) (ns : List XNode) : XNode :=
  match n with
  | .elem t a tx cs tl => .elem t a tx (xnodes (cs.toList ++ ns)) tl

/-- Navigation items: one paragraph or button per heading, each holding a
link to `#headingN` with the stripped heading text, N counting from 1. -/
def buildNavItems (typ : Chars) : List XNode → Nat → List XNode
  | [], _ => []
  | n :: rest, i =>
    (.elem (if typ = chars "paragraph" then chars "p" else chars "button") [] []
      (.cons (.elem (chars "a") [(chars "href", chars "#heading" ++ natChars i)]
        (headingNavText n) .nil []) .nil) [])
    :: buildNavItems typ rest (i + 1)

/-- Embedding of `create_navigation`.  When the navigation flag is set, the
navigation element receives one item per found heading (the `findH1 != None`
test in the source is always true, as XPath returns a list) and the grid div
receives the comment, the "Navigation" heading and the navigation element;
when the flag is unset the grid div is returned unchanged. -/
def create_navigation (navigationVar : Bool) (navigationTypeVar : Chars)
    (findH1 : List XNode) (navigationElement commentNavigation h1Navigation navGridDiv : XNode) :
    XNode :=
  if navigationVar then
    appendChildren navGridDiv
      [commentNavigation, h1Navigation,
       appendChildren navigationElement (buildNavItems navigationTypeVar findH1 1)]
  else navGridDiv

/-- The two GUI flags feeding `create_navigation`. -/
structure NavState where
  headingsID : Bool
  navigation : Bool

/-- GUI events that can change those flags. -/
inductive NavEvent where
  | toggleHeadings
  | toggleNavigation
  | resetOptions

/-- One GUI event.  Toggling "Add IDs to headings?" runs `ableNavigation`,
which forces the navigation flag off when heading IDs are now off; the
"Create navigation?" checkbox is disabled (cannot be toggled) while heading
IDs are off; "Reset options" restores the defaults (heading IDs on,
navigation off). -/
def navStep (s : NavState) : NavEvent → NavState
  | .toggleHeadings =>
    let h := !s.headingsID
    if h then { headingsID := h, navigation := s.navigation }
    else { headingsID := h, navigation := false }
  | .toggleNavigation =>
    if s.headingsID then { s with navigation := !s.navigation } else s
  | .resetOptions => { headingsID := true, navigation := false }

/-- Run a sequence of GUI events. -/
def navRun (s : NavState) : List NavEvent → NavState
  | [] => s
  | e :: es => navRun (navStep s e) es

/-! ### Theorem for C5 -/

/-- One GUI event preserves "navigation on implies heading IDs on". -/
theorem navStep_inv (s : NavState) (e : NavEvent)
    (h : s.navigation = true → s.headingsID = true) :
    (navStep s e).navigation = true → (navStep s e).headingsID = true := by
  rcases s with ⟨h1, n1⟩
  cases e <;> cases h1 <;> cases n1 <;> simp_all [navStep]

/-- Reachable GUI states keep "navigation on implies heading IDs on". -/
theorem navRun_inv (s : NavState) (h : s.navigation = true → s.headingsID = true) :
    ∀ es : List NavEvent,
      (navRun s es).navigation = true → (navRun s es).headingsID = true := by
  intro es
  induction es generalizing s with
  | nil => exact h
  | cons e es ih => exact ih (navStep s e) (navStep_inv s e h)

/-- C5: in any GUI state reached from a state satisfying the program's own
invariant (navigation on only with heading IDs on), if heading-ID assignment
is disabled then the navigation flag has been forced off, so
`create_navigation` leaves the navigation grid empty, whatever headings were
found and whatever the navigation item kind is. -/
theorem navigation_empty_when_heading_ids_disabled
    (s0 : NavState) (hs0 : s0.navigation = true → s0.headingsID = true)
    (es : List NavEvent) (hdis : (navRun s0 es).headingsID = false)
    (typ : Chars) (findH1 : List XNode)
    (navElt comm h1nav navGridDiv : XNode) (hEmpty : navGridDiv.children = .nil) :
    (create_navigation (navRun s0 es).navigation typ findH1
      navElt comm h1nav navGridDiv).children = .nil := by
  have hnav : (navRun s0 es).navigation = false := by
    cases h : (navRun s0 es).navigation with
    | false => rfl
    | true => exact absurd (navRun_inv s0 hs0 es h) (by simp [hdis])
  rw [create_navigation, hnav]
  simpa using hEmpty

/-- Witness for `navigation_empty_when_heading_ids_disabled`: the user turns
navigation on, then turns heading IDs off (which forces navigation off); the
produced navigation grid is empty. -/
theorem navigation_empty_when_heading_ids_disabled_witness :
    (create_navigation
      (navRun ⟨true, false⟩ [.toggleNavigation, .toggleHeadings]).navigation
      (chars "paragraph") []
      (.elem (chars "nav") [] [] .nil [])
      (.elem (chars "!comment") [] (chars " Navigation ") .nil [])
      (.elem (chars "h1") [] (chars "Navigation") .nil [])
      (.elem (chars "div") [(chars "class", chars "navGrid")] [] .nil [])).children = .nil :=
  navigation_empty_when_heading_ids_disabled ⟨true, false⟩ (by decide)
    [.toggleNavigation, .toggleHeadings] (by decide)
    (chars "paragraph") []
    (.elem (chars "nav") [] [] .nil [])
    (.elem (chars "!comment") [] (chars " Navigation ") .nil [])
    (.elem (chars "h1") [] (chars "Navigation") .nil [])
    (.elem (chars "div") [(chars "class", chars "navGrid")] [] .nil []) rfl

/-! ## Footnote restructuring (`adjust_footnotes`)

The tooltip branch of `adjust_footnotes` loops while the XPath
`//sup/span[contains(@class, "tooltippop")]/..` finds matches; each pass
hoists the children of every matched `sup` out (lxml's prefetching child
iterator together with `addnext` leaves them in reversed order) and removes
the wrapper.  Hoisting can create new matches one level up, which is why the
outer `while` is needed. -/

/-- A `span` whose class contains `tooltippop`. -/
def isTooltipPopSpan (c : XNode) : Bool :=
  decide (c.tag = chars "span")
    && (match getAttr c (chars "class") with
        | some v => strContains v (chars "tooltippop")
        | none => false)

/-- A matched wrapper: a `sup` with a tooltip-container span child. -/
def isAdjMatched (n : XNode) : Bool :=
  decide (n.tag = chars "sup") && anyChild isTooltipPopSpan n.children

mutual
/-- Weight of a subtree, the termination measure of the hoisting pass. -/
def weightOf : XNode → Nat
  | .elem _ _ _ cs _ => 1 + weightXs cs
/-- Weight of a sibling sequence. -/
def weightXs : XNodes → Nat
  | .nil => 0
  | .cons c cs => weightOf c + weightXs cs
end

/-- Weight of a sibling list. -/
def weightL (l : List XNode) : Nat := (l.map weightOf).sum

/-- A sibling sequence reversed, as the prefetching iterator plus `addnext`
produces. -/
def reverseNodes (cs : XNodes) : XNodes := xnodes cs.toList.reverse

theorem weightXs_xnodes (l : List XNode) : weightXs (xnodes l) = weightL l := by
  induction l with
  | nil => simp [xnodes, weightXs, weightL]
  | cons c cs ih => simp [xnodes, weightXs, weightL, ih]

theorem weightXs_toList : ∀ cs : XNodes, weightL cs.toList = weightXs cs
  | .nil => by simp [XNodes.toList, weightXs, weightL]
  | .cons c cs => by
    have ih := weightXs_toList cs
    simp [XNodes.toList, weightXs, weightL] at ih ⊢
    omega

theorem weight_reverse (cs : XNodes) : weightXs (reverseNodes cs) = weightXs cs := by
  rw [reverseNodes, weightXs_xnodes, ← weightXs_toList cs]
  simp [weightL, List.sum_reverse]

theorem weightOf_pos : ∀ n : XNode, 1 ≤ weightOf n
  | .elem _ _ _ cs _ => by simp [weightOf]

mutual
/-- One snapshot pass of the hoisting loop on a single node: a matched `sup`
wrapper is replaced by its (reversed) children, themselves processed, its
text and tail dropped as `remove()` drops them; an unmatched node keeps its
place with processed children. -/
def adjPassOf (n : XNode) : List XNode :=
  match n with
  | .elem t a tx cs tl =>
    if isAdjMatched (.elem t a tx cs tl) then adjPassList (reverseNodes cs)
    else [.elem t a tx (xnodes (adjPassList cs)) tl]
termination_by weightOf n * 2
decreasing_by
  · rw [weight_reverse]
    simp [weightOf]
    omega
  · simp [weightOf]
    omega
/-- One snapshot pass on a sibling sequence. -/
def adjPassList : XNodes → List XNode
  | .nil => []
  | .cons c rest => adjPassOf c ++ adjPassList rest
termination_by cs => weightXs cs * 2 + 1
decreasing_by
  · simp [weightXs]
    omega
  · have h := weightOf_pos c
    simp [weightXs]
    omega
end

mutual
/-- Number of `sup` elements in a subtree (including the node itself). -/
def supCountOf : XNode → Nat
  | .elem t _ _ cs _ => (if t = chars "sup" then 1 else 0) + supCountXs cs
/-- Number of `sup` elements in a sibling sequence. -/
def supCountXs : XNodes → Nat
  | .nil => 0
  | .cons c cs => supCountOf c + supCountXs cs
end

/-- Number of `sup` elements in a sibling list. -/
def supCountL (l : List XNode) : Nat := (l.map supCountOf).sum

mutual
/-- Number of matched wrappers in a subtree (including the node itself). -/
def matchedCountOf : XNode → Nat
  | .elem t a tx cs tl =>
    (if isAdjMatched (.elem t a tx cs tl) then 1 else 0) + matchedCountXs cs
/-- Number of matched wrappers in a sibling sequence. -/
def matchedCountXs : XNodes → Nat
  | .nil => 0
  | .cons c cs => matchedCountOf c + matchedCountXs cs
end

theorem supCountXs_xnodes (l : List XNode) : supCountXs (xnodes l) = supCountL l := by
  induction l with
  | nil => simp [xnodes, supCountXs, supCountL]
  | cons c cs ih => simp [xnodes, supCountXs, supCountL, ih]

theorem supCount_toList : ∀ cs : XNodes, supCountL cs.toList = supCountXs cs
  | .nil => by simp [XNodes.toList, supCountXs, supCountL]
  | .cons c cs => by
    have ih := supCount_toList cs
    simp [XNodes.toList, supCountXs, supCountL] at ih ⊢
    omega

theorem supCount_reverse (cs : XNodes) : supCountXs (reverseNodes cs) = supCountXs cs := by
  rw [reverseNodes, supCountXs_xnodes, ← supCount_toList cs]
  simp [supCountL, List.sum_reverse]

theorem supCountL_append (l1 l2 : List XNode) :
    supCountL (l1 ++ l2) = supCountL l1 + supCountL l2 := by
  simp [supCountL]

theorem supCountL_singleton (n : XNode) : supCountL [n] = supCountOf n := by
  simp [supCountL]

/-- A matched wrapper is a `sup`. -/
theorem isAdjMatched_tag (t : Chars) (a : List (Chars × Chars)) (tx : Chars)
    (cs : XNodes) (tl : Chars)
    (h : isAdjMatched (.elem t a tx cs tl) = true) : t = chars "sup" := by
  rw [isAdjMatched, Bool.and_eq_true] at h
  simpa [XNode.tag] using of_decide_eq_true h.1

mutual
/-- Matched wrappers never outnumber `sup` elements. -/
theorem matched_le_sup_of : ∀ n : XNode, matchedCountOf n ≤ supCountOf n
  | .elem t a tx cs tl => by
    have ih := matched_le_sup_xs cs
    by_cases h : isAdjMatched (.elem t a tx cs tl)
    · have ht := isAdjMatched_tag t a tx cs tl h
      subst ht
      simp [matchedCountOf, supCountOf, h]
      omega
    · rw [matchedCountOf, supCountOf]
      simp only [h, Bool.false_eq_true, if_false]
      by_cases h2 : t = chars "sup" <;> simp [h2] <;> omega
/-- Matched wrappers never outnumber `sup` elements, sequence version. -/
theorem matched_le_sup_xs : ∀ cs : XNodes, matchedCountXs cs ≤ supCountXs cs
  | .nil => by simp [matchedCountXs, supCountXs]
  | .cons c cs => by
    have ih1 := matched_le_sup_of c
    have ih2 := matched_le_sup_xs cs
    simp only [matchedCountXs, supCountXs]
    omega
end

mutual
/-- A pass never increases the number of `sup` elements. -/
theorem adj_sup_le_of (n : XNode) : supCountL (adjPassOf n) ≤ supCountOf n :=
  match n with
  | .elem t a tx cs tl => by
    by_cases h : isAdjMatched (.elem t a tx cs tl)
    · have ih := adj_sup_le_xs (reverseNodes cs)
      rw [adjPassOf]
      simp only [h, if_true]
      rw [supCount_reverse] at ih
      rw [supCountOf]
      omega
    · have ih := adj_sup_le_xs cs
      rw [adjPassOf]
      simp only [h, Bool.false_eq_true, if_false]
      rw [supCountL_singleton, supCountOf, supCountOf, supCountXs_xnodes]
      omega
termination_by weightOf n * 2
decreasing_by
  all_goals simp [weightOf, weight_reverse]
  all_goals omega
/-- A pass never increases the number of `sup` elements, sequence version. -/
theorem adj_sup_le_xs (cs : XNodes) : supCountL (adjPassList cs) ≤ supCountXs cs :=
  match cs with
  | .nil => by simp [adjPassList, supCountL, supCountXs]
  | .cons c rest => by
    have ih1 := adj_sup_le_of c
    have ih2 := adj_sup_le_xs rest
    rw [adjPassList, supCountL_append]
    rw [supCountXs]
    omega
termination_by weightXs cs * 2 + 1
decreasing_by
  all_goals try have hpos := weightOf_pos c
  all_goals simp [weightXs]
  all_goals omega
end

mutual
/-- A pass on a subtree containing a matched wrapper strictly decreases the
number of `sup` elements: the wrapper itself (a `sup`) is deleted. -/
theorem adj_sup_lt_of (n : XNode) (hm : 0 < matchedCountOf n) :
    supCountL (adjPassOf n) < supCountOf n :=
  match n with
  | .elem t a tx cs tl => by
    by_cases h : isAdjMatched (.elem t a tx cs tl)
    · have ih := adj_sup_le_xs (reverseNodes cs)
      have ht := isAdjMatched_tag t a tx cs tl h
      subst ht
      rw [adjPassOf]
      simp only [h, if_true]
      rw [supCount_reverse] at ih
      rw [supCountOf]
      have hone : (if chars "sup" = chars "sup" then 1 else 0) = 1 := by simp
      rw [hone]
      omega
    · have hxs : 0 < matchedCountXs cs := by
        rw [matchedCountOf] at hm
        simp only [h, Bool.false_eq_true, if_false] at hm
        omega
      have ih := adj_sup_lt_xs cs hxs
      rw [adjPassOf]
      simp only [h, Bool.false_eq_true, if_false]
      rw [supCountL_singleton, supCountOf, supCountOf, supCountXs_xnodes]
      omega
termination_by weightOf n * 2
decreasing_by
  all_goals simp [weightOf, weight_reverse]
  all_goals omega
/-- Sequence version of the strict decrease. -/
theorem adj_sup_lt_xs (cs : XNodes) (hm : 0 < matchedCountXs cs) :
    supCountL (adjPassList cs) < supCountXs cs :=
  match cs with
  | .nil => by simp [matchedCountXs] at hm
  | .cons c rest => by
    rw [adjPassList, supCountL_append]
    rw [supCountXs]
    rw [matchedCountXs] at hm
    by_cases hc : 0 < matchedCountOf c
    · have h1 := adj_sup_lt_of c hc
      have h2 := adj_sup_le_xs rest
      omega
    · have hrest : 0 < matchedCountXs rest := by omega
      have h1 := adj_sup_le_of c
      have h2 := adj_sup_lt_xs rest hrest
      omega
termination_by weightXs cs * 2 + 1
decreasing_by
  all_goals try have hpos := weightOf_pos c
  all_goals simp [weightXs]
  all_goals omega
end

/-- One iteration of the `while` loop of `adjust_footnotes`, seen from the
document root (a `body` or `html` element, never itself a matched `sup`):
all currently matched wrappers below the root are removed. -/
def adjPassRoot : XNode → XNode
  | .elem t a tx cs tl => .elem t a tx (xnodes (adjPassList cs)) tl

/-- The `while` loop of `adjust_footnotes` with an explicit fuel bound: it
repeats the pass while matches remain. -/
def adjLoop : Nat → XNode → XNode
  | 0, n => n
  | fuel + 1, n => if matchedCountOf n = 0 then n else adjLoop fuel (adjPassRoot n)

theorem adjPassRoot_tag (n : XNode) : (adjPassRoot n).tag = n.tag := by
  cases n
  rfl

/-- A non-`sup` node is never a matched wrapper. -/
theorem isAdjMatched_of_tag_ne (n : XNode) (h : n.tag ≠ chars "sup") :
    isAdjMatched n = false := by
  rw [isAdjMatched]
  have h2 : decide (n.tag = chars "sup") = false := decide_eq_false h
  simp [h2]

/-- At a non-`sup` root, a pass on a tree that still has matches strictly
decreases the `sup` count. -/
theorem adjPassRoot_decreases (n : XNode) (hroot : n.tag ≠ chars "sup")
    (hm : 0 < matchedCountOf n) : supCountOf (adjPassRoot n) < supCountOf n := by
  cases n with
  | elem t a tx cs tl =>
    have htag : t ≠ chars "sup" := by simpa [XNode.tag] using hroot
    have hmf : isAdjMatched (.elem t a tx cs tl) = false :=
      isAdjMatched_of_tag_ne _ (by simpa [XNode.tag] using hroot)
    have hxs : 0 < matchedCountXs cs := by
      simp only [matchedCountOf, hmf, Bool.false_eq_true, if_false] at hm
      omega
    have hlt := adj_sup_lt_xs cs hxs
    simp only [adjPassRoot, supCountOf, htag, if_false, supCountXs_xnodes]
    omega

theorem adjLoop_clears (fuel : Nat) : ∀ n : XNode, n.tag ≠ chars "sup" →
    supCountOf n ≤ fuel → matchedCountOf (adjLoop fuel n) = 0 := by
  induction fuel with
  | zero =>
    intro n hroot hle
    have h := matched_le_sup_of n
    simp only [adjLoop]
    omega
  | succ fuel ih =>
    intro n hroot hle
    rw [adjLoop]
    by_cases hm : matchedCountOf n = 0
    · simp [hm]
    · simp only [hm, if_false]
      apply ih (adjPassRoot n)
      · rw [adjPassRoot_tag]
        exact hroot
      · have h := adjPassRoot_decreases n hroot (by omega)
        omega

/-! ### Theorem for C9 -/

/-- C9: the search-and-rebuild loop of `adjust_footnotes` terminates on every
finite document tree (rooted, as pipeline documents are, at a non-`sup`
element): every pass deletes each matched `sup` wrapper after hoisting its
children out, so the number of `sup` elements strictly decreases while
matches remain, and after at most `supCountOf` passes the match set is
empty, which is the loop's exit condition. -/
theorem adjust_footnotes_loop_terminates (n : XNode) (hroot : n.tag ≠ chars "sup") :
    matchedCountOf (adjLoop (supCountOf n) n) = 0 :=
  adjLoop_clears (supCountOf n) n hroot (Nat.le_refl _)

/-- Witness for `adjust_footnotes_loop_terminates`: a body containing a
matched wrapper nested inside another `sup` (so the first pass creates a new
match one level up and a second pass is needed). -/
theorem adjust_footnotes_loop_terminates_witness :
    matchedCountOf (adjLoop (supCountOf (.elem (chars "body") [] []
      (.cons (.elem (chars "sup") [] []
        (.cons (.elem (chars "sup") [] []
          (.cons (.elem (chars "span") [(chars "class", chars "tooltippop")] [] .nil [])
            .nil) []) .nil) []) .nil) []))
      (.elem (chars "body") [] []
      (.cons (.elem (chars "sup") [] []
        (.cons (.elem (chars "sup") [] []
          (.cons (.elem (chars "span") [(chars "class", chars "tooltippop")] [] .nil [])
            .nil) []) .nil) []) .nil) [])) = 0 :=
  adjust_footnotes_loop_terminates _ (by decide)

/-! ## Footnote extraction (`create_footnotes_list`) -/

/-- Attribute lookup in an attribute list. -/
def attrLookup (a : List (Chars × Chars)) (k : Chars) : Option Chars :=
  (a.find? (fun p => decide (p.fst = k))).map Prod.snd

/-- Model of `re.sub(r'(<p>)(.*?)(<a href="#footnote-ref)(.*)', r'\2', s)`:
on a single-line serialized footnote paragraph, keep what stands between the
first `<p>` and the first back-reference anchor after it; no match leaves the
string unchanged. -/
def footnoteRegexStrip (s : Chars) : Chars :=
  match splitFirst (chars "<p>") s with
  | none => s
  | some (pre, rest) =>
    match splitFirst (chars "<a href=\"#footnote-ref") rest with
    | none => s
    | some (mid, _) => pre ++ mid

/-- True when the sequence holds a direct `li` child with the given id (the
XPath `li[@id=key]` step). -/
def hasLiWithId (key : Chars) : XNodes → Bool
  | .nil => false
  | .cons c cs =>
    (decide (c.tag = chars "li") && decide (getAttr c (chars "id") = some key))
      || hasLiWithId key cs

mutual
/-- All nodes (in document order, the root included) having a direct `li`
child with the given id: the XPath `.//li[@id=key]/..`. -/
def parentsWithLiOf (key : Chars) : XNode → List XNode
  | .elem t a tx cs tl =>
    (if hasLiWithId key cs then [.elem t a tx cs tl] else []) ++ parentsWithLiXs key cs
/-- Sequence version. -/
def parentsWithLiXs (key : Chars) : XNodes → List XNode
  | .nil => []
  | .cons c cs => parentsWithLiOf key c ++ parentsWithLiXs key cs
end

/-- Embedding of `create_footnotes_list`: probe for a list item keyed
`footnote-1`, fall back to `footnote-0`; then, for every paragraph of every
item of every found list, produce one fragment — the plain text with the
back-reference arrow stripped when a (non-empty) abbreviation threshold is
set, the serialized markup cut before the back-reference anchor otherwise. -/
def create_footnotes_list (bodyxml : XNode) (abbreviateFootnotesNumber : Chars) :
    List Chars :=
  let probe1 := parentsWithLiOf (chars "footnote-1") bodyxml
  let footnotePath :=
    if probe1.isEmpty then parentsWithLiOf (chars "footnote-0") bodyxml else probe1
  footnotePath.flatMap (fun ol =>
    ol.children.toList.flatMap (fun li =>
      li.children.toList.map (fun p =>
        if abbreviateFootnotesNumber ≠ [] then stripFootnoteArrow (itertextOf p)
        else footnoteRegexStrip (serializeNode p))))

/-- Length accounting for `splitFirst`. -/
theorem splitFirst_length (pat : Chars) : ∀ (s pre after : Chars),
    splitFirst pat s = some (pre, after) →
    pre.length + pat.length + after.length = s.length := by
  intro s
  induction s with
  | nil =>
    intro pre after h
    rw [splitFirst] at h
    by_cases hp : pat = []
    · rw [if_pos hp] at h
      simp only [Option.some_inj, Prod.mk.injEq] at h
      obtain ⟨h1, h2⟩ := h
      subst h1
      subst h2
      simp [hp]
    · rw [if_neg hp] at h
      exact absurd h (by simp)
  | cons c rest ih =>
    intro pre after h
    rw [splitFirst] at h
    by_cases hp : pat.isPrefixOf (c :: rest) = true
    · rw [if_pos hp] at h
      simp only [Option.some_inj, Prod.mk.injEq] at h
      obtain ⟨h1, h2⟩ := h
      have hle : pat.length ≤ (c :: rest).length :=
        (List.isPrefixOf_iff_prefix.mp hp).length_le
      subst h1
      subst h2
      simp only [List.length_nil, List.length_drop, List.length_cons] at hle ⊢
      omega
    · rw [if_neg hp] at h
      cases hsp : splitFirst pat rest with
      | none =>
        rw [hsp] at h
        exact absurd h (by simp)
      | some p =>
        rw [hsp] at h
        simp at h
        obtain ⟨h1, h2⟩ := h
        have hih := ih p.fst p.snd (by rw [hsp])
        subst h1
        subst h2
        simp only [List.length_cons] at hih ⊢
        omega

/-- Model of the anchor-content rewriting `re.sub` of `add_wbr_footnotes`:
every `<a ...>content</a>` gets its content replaced by `repl` (the source
substitutes the same prepared text into every anchor). -/
def replaceAnchorContents (repl : Chars) (s : Chars) : Chars :=
  match h1 : splitFirst (chars "<a") s with
  | none => s
  | some (pre, afterA) =>
    match h2 : splitFirst (chars ">") afterA with
    | none => s
    | some (attrsPart, afterOpen) =>
      match h3 : splitFirst (chars "</a>") afterOpen with
      | none => s
      | some (_, post) =>
        pre ++ chars "<a" ++ attrsPart ++ chars ">" ++ repl ++ chars "</a>"
          ++ replaceAnchorContents repl post
termination_by s.length
decreasing_by
  have e1 := splitFirst_length (chars "<a") s pre afterA h1
  have e2 := splitFirst_length (chars ">") afterA attrsPart afterOpen h2
  have e3 := splitFirst_length (chars "</a>") afterOpen _ post h3
  simp [chars] at e1 e2 e3
  omega

/-- Embedding of `add_wbr_footnotes`: with a non-empty threshold the
fragments are plain text, so break hints go after every slash; otherwise
only the first anchor's content is slash-hinted and substituted back into
the anchors (no anchor leaves the fragment unchanged). -/
def add_wbr_footnotes (footnotesAbbr : List Chars) (abbreviateFootnotesNumber : Chars) :
    List Chars :=
  if abbreviateFootnotesNumber ≠ [] then footnotesAbbr.map addWbrSlashes
  else footnotesAbbr.map (fun f =>
    match splitFirst (chars "<a") f with
    | none => f
    | some (_, afterA) =>
      match splitFirst (chars ">") afterA with
      | none => f
      | some (_, afterOpen) =>
        match splitFirst (chars "</a>") afterOpen with
        | none => f
        | some (content, _) => replaceAnchorContents (addWbrSlashes content) f)

/-! ## Footnote injection (`insert_footnotes`) -/

/-- An in-text footnote reference anchor: an `a` whose id contains
`footnote-ref`. -/
def isFootnoteRefA (c : XNode) : Bool :=
  decide (c.tag = chars "a")
    && (match getAttr c (chars "id") with
        | some v => strContains v (chars "footnote-ref")
        | none => false)

/-- A reference marker: a `sup` with a footnote-reference anchor child (the
XPath `//sup/a[contains(@id, "footnote-ref")]/..`). -/
def isFootnoteSup (n : XNode) : Bool :=
  decide (n.tag = chars "sup") && anyChild isFootnoteRefA n.children

/-- Append one node at the end of a sequence. -/
def appendNode : XNodes → XNode → XNodes
  | .nil, n => .cons n .nil
  | .cons c cs, n => .cons c (appendNode cs n)

/-- Concatenate sequences. -/
def appendXs : XNodes → XNodes → XNodes
  | .nil, b => b
  | .cons c cs, b => .cons c (appendXs cs b)

mutual
/-- Tooltip injection on one node, threading the 0-based marker counter: the
Nth matched `sup` (document order) receives the Nth fragment inside a new
tooltip-text span (role `tooltip`, id `tooltip-(N+1)`), appended after the
marker's children, all wrapped in a tooltip-container span (class
`tooltippop`, described-by `tooltip-(N+1)`); a missing fragment raises an
`IndexError` as the Python list indexing does. -/
def insertFnOf (fs : List Chars) (i : Nat) : XNode → Except Chars (XNode × Nat)
  | .elem t a tx cs tl =>
    if isFootnoteSup (.elem t a tx cs tl) then
      match fs[i]? with
      | none => .error (chars "IndexError")
      | some ft =>
        match insertFnXs fs (i + 1) cs with
        | .error e => .error e
        | .ok (cs2, i2) =>
          .ok (.elem t a tx
            (.cons (.elem (chars "span")
              [(chars "class", chars "tooltippop"),
               (chars "aria-describedby", chars "tooltip-" ++ natChars (i + 1))] []
              (appendNode cs2 (.elem (chars "span")
                [(chars "role", chars "tooltip"),
                 (chars "id", chars "tooltip-" ++ natChars (i + 1))] ft .nil []))
              []) .nil) tl, i2)
    else
      match insertFnXs fs i cs with
      | .error e => .error e
      | .ok (cs2, i2) => .ok (.elem t a tx cs2 tl, i2)
/-- Sequence version of the injection. -/
def insertFnXs (fs : List Chars) (i : Nat) : XNodes → Except Chars (XNodes × Nat)
  | .nil => .ok (.nil, i)
  | .cons c cs =>
    match insertFnOf fs i c with
    | .error e => .error e
    | .ok (c2, i1) =>
      match insertFnXs fs i1 cs with
      | .error e => .error e
      | .ok (cs2, i2) => .ok (.cons c2 cs2, i2)
end

/-- Embedding of `insert_footnotes`: a no-op when tooltips are disabled. -/
def insert_footnotes (tooltipsCheckVar : Bool) (bodyxml : XNode)
    (footnotesAbbr : List Chars) : Except Chars XNode :=
  if tooltipsCheckVar then (insertFnOf footnotesAbbr 0 bodyxml).map Prod.fst
  else .ok bodyxml

/-- A tooltip-text span: `span` with `role="tooltip"`. -/
def isTooltipTA (t : Chars) (a : List (Chars × Chars)) : Bool :=
  decide (t = chars "span") && decide (attrLookup a (chars "role") = some (chars "tooltip"))

mutual
/-- Texts of all tooltip-text spans, in document order. -/
def tooltipTextsOf : XNode → List Chars
  | .elem t a tx cs _ => (if isTooltipTA t a then [tx] else []) ++ tooltipTextsXs cs
/-- Sequence version. -/
def tooltipTextsXs : XNodes → List Chars
  | .nil => []
  | .cons c cs => tooltipTextsOf c ++ tooltipTextsXs cs
end

/-! ### Theorems for C6 -/

/-- A footnote paragraph containing markup: `<p><em>x</em> <a
href="#footnote-ref-1">↑</a></p>`. -/
def c6para : XNode :=
  .elem (chars "p") [] []
    (.cons (.elem (chars "em") [] (chars "x") .nil (chars " "))
      (.cons (.elem (chars "a") [(chars "href", chars "#footnote-ref-1")]
        (chars "↑") .nil []) .nil)) []

/-- A document whose footnote list holds `c6para` under `footnote-1`. -/
def c6doc : XNode :=
  .elem (chars "body") [] []
    (.cons (.elem (chars "ol") [] []
      (.cons (.elem (chars "li") [(chars "id", chars "footnote-1")] []
        (.cons c6para .nil) []) .nil) []) .nil) []

/-- C6 counterexample: with the non-numeric threshold "abc" the abbreviation
stage leaves the fragment list unchanged and emits exactly one warning, but
the fragments are NOT identical to those of an empty threshold: a non-empty
threshold already selects the tag-stripping extraction branch, so the
markup-bearing footnote extracts as "x" instead of "<em>x</em> ". -/
theorem abbreviate_nonnumeric_counterexample :
    create_footnotes_list c6doc (chars "abc") = [chars "x"]
    ∧ create_footnotes_list c6doc [] = [chars "<em>x</em> "]
    ∧ (abbreviate_footnotes (create_footnotes_list c6doc (chars "abc")) (chars "abc")).fst
        = create_footnotes_list c6doc (chars "abc")
    ∧ (abbreviate_footnotes (create_footnotes_list c6doc (chars "abc")) (chars "abc")).snd
        = [abbrevWarning]
    ∧ ¬ (abbreviate_footnotes (create_footnotes_list c6doc (chars "abc")) (chars "abc")).fst
        = create_footnotes_list c6doc [] := by
  decide

/-- C6 amended: when the threshold string is non-empty and not a digit
string, `abbreviate_footnotes` emits exactly one warning and returns the
extracted fragments unchanged, and the pipeline continues; the fragments are
those of the tag-stripping extraction branch, which an empty (disabled)
threshold would not have selected. -/
theorem abbreviate_footnotes_nonnumeric (fs : List Chars) (num : Chars)
    (h1 : num ≠ []) (h2 : pyIsDigit num = false) :
    abbreviate_footnotes fs num = (fs, [abbrevWarning]) := by
  simp [abbreviate_footnotes, h1, h2]

/-- Witness for `abbreviate_footnotes_nonnumeric` at the fragments of
`c6doc` and threshold "abc". -/
theorem abbreviate_footnotes_nonnumeric_witness :
    abbreviate_footnotes [chars "x"] (chars "abc") = ([chars "x"], [abbrevWarning]) :=
  abbreviate_footnotes_nonnumeric [chars "x"] (chars "abc") (by decide) (by decide)

/-! ### Definitions and lemmas for C4 (footnote numbering offset) -/

/-- Footnote list item key `footnote-j`. -/
def fnKey (j : Nat) : Chars := chars "footnote-" ++ natChars j

/-- Footnote list items keyed from `start`, each holding its content. -/
def mkLis (start : Nat) : List XNodes → List XNode
  | [] => []
  | it :: rest => .elem (chars "li") [(chars "id", fnKey start)] [] it [] :: mkLis (start + 1) rest

/-- The footnote list element keyed from `start`. -/
def mkOl (start : Nat) (items : List XNodes) : XNode :=
  .elem (chars "ol") [] [] (xnodes (mkLis start items)) []

/-- A document: main content followed by the footnote list keyed from
`start`.  The two keying conventions of the claim are `start = 0` and
`start = 1`. -/
def mkDoc (main : List XNode) (start : Nat) (items : List XNodes) : XNode :=
  .elem (chars "body") [] [] (xnodes (main ++ [mkOl start items])) []

/-- A node is a list item keyed `footnote-0` or `footnote-1`. -/
def isProbeLi (n : XNode) : Bool :=
  decide (n.tag = chars "li")
    && (decide (getAttr n (chars "id") = some (chars "footnote-0"))
        || decide (getAttr n (chars "id") = some (chars "footnote-1")))

mutual
/-- No probe-key list item anywhere in a subtree. -/
def noFnLiOf : XNode → Bool
  | .elem t a tx cs tl => !isProbeLi (.elem t a tx cs tl) && noFnLiXs cs
/-- Sequence version. -/
def noFnLiXs : XNodes → Bool
  | .nil => true
  | .cons c cs => noFnLiOf c && noFnLiXs cs
end

/-- No probe-key list item in a list of subtrees. -/
def noFnLiL (l : List XNode) : Bool := l.all noFnLiOf

/-- No probe-key list item inside any footnote item content. -/
def noFnLiItems (items : List XNodes) : Bool := items.all noFnLiXs

/-- A probe key is one of the two keys. -/
def isProbeKey (key : Chars) : Prop :=
  key = chars "footnote-0" ∨ key = chars "footnote-1"

theorem hasLi_false_of_noFnLi (key : Chars) (hkey : isProbeKey key) :
    ∀ cs : XNodes, noFnLiXs cs = true → hasLiWithId key cs = false
  | .nil, _ => rfl
  | .cons c cs, h => by
    rw [noFnLiXs, Bool.and_eq_true] at h
    have ih := hasLi_false_of_noFnLi key hkey cs h.2
    rw [hasLiWithId, ih, Bool.or_false]
    cases c with
    | elem t a tx ccs tl =>
      rw [noFnLiOf, Bool.and_eq_true] at h
      have hnp := h.1.1
      rw [Bool.not_eq_true', isProbeLi] at hnp
      by_cases ht : t = chars "li"
      · rw [Bool.and_eq_false_iff] at hnp
        rcases hnp with hnp | hnp
        · exact absurd (by simpa [XNode.tag, ht] using rfl : decide ((XNode.elem t a tx ccs tl).tag = chars "li") = true) (by rw [hnp]; simp)
        · rw [Bool.or_eq_false_iff] at hnp
          rcases hkey with hk | hk
          · subst hk
            rw [Bool.and_eq_false_iff]
            right
            exact hnp.1
          · subst hk
            rw [Bool.and_eq_false_iff]
            right
            exact hnp.2
      · rw [Bool.and_eq_false_iff]
        left
        exact decide_eq_false (by simpa [XNode.tag] using ht)

mutual
/-- Below a clean subtree, the probe finds no parents. -/
theorem parents_nil_of_noFnLi_of (key : Chars) (hkey : isProbeKey key) :
    ∀ n : XNode, noFnLiOf n = true → parentsWithLiOf key n = []
  | .elem t a tx cs tl, h => by
    rw [noFnLiOf, Bool.and_eq_true] at h
    have ih := parents_nil_of_noFnLi_xs key hkey cs h.2
    rw [parentsWithLiOf, hasLi_false_of_noFnLi key hkey cs h.2]
    simp [ih]
/-- Sequence version. -/
theorem parents_nil_of_noFnLi_xs (key : Chars) (hkey : isProbeKey key) :
    ∀ cs : XNodes, noFnLiXs cs = true → parentsWithLiXs key cs = []
  | .nil, _ => rfl
  | .cons c cs, h => by
    rw [noFnLiXs, Bool.and_eq_true] at h
    rw [parentsWithLiXs, parents_nil_of_noFnLi_of key hkey c h.1,
      parents_nil_of_noFnLi_xs key hkey cs h.2]
    rfl
end

/-- The extracted fragments of a footnote list, one per paragraph per item. -/
def itemFrags (ab : Chars) (items : List XNodes) : List Chars :=
  items.flatMap (fun it => it.toList.map (fun p =>
    if ab ≠ [] then stripFootnoteArrow (itertextOf p)
    else footnoteRegexStrip (serializeNode p)))

theorem isLiKey_false (key : Chars) (hkey : isProbeKey key) (m : XNode)
    (h : noFnLiOf m = true) :
    (decide (m.tag = chars "li") && decide (getAttr m (chars "id") = some key)) = false := by
  cases m with
  | elem t a tx cs tl =>
    rw [noFnLiOf, Bool.and_eq_true] at h
    have hnp := h.1
    rw [Bool.not_eq_true', isProbeLi, Bool.and_eq_false_iff] at hnp
    rcases hnp with hnp | hnp
    · rw [Bool.and_eq_false_iff]
      left
      exact hnp
    · rw [Bool.or_eq_false_iff] at hnp
      rw [Bool.and_eq_false_iff]
      right
      rcases hkey with hk | hk
      · subst hk
        exact hnp.1
      · subst hk
        exact hnp.2

theorem hasLi_xnodes_append (key : Chars) (l1 l2 : List XNode) :
    hasLiWithId key (xnodes (l1 ++ l2))
      = (hasLiWithId key (xnodes l1) || hasLiWithId key (xnodes l2)) := by
  induction l1 with
  | nil => simp [xnodes, hasLiWithId]
  | cons c cs ih => simp [xnodes, hasLiWithId, ih, Bool.or_assoc]

theorem hasLi_false_of_noFnLiL (key : Chars) (hkey : isProbeKey key) :
    ∀ l : List XNode, noFnLiL l = true → hasLiWithId key (xnodes l) = false := by
  intro l
  induction l with
  | nil => intro _; rfl
  | cons c cs ih =>
    intro h
    rw [noFnLiL, List.all_cons, Bool.and_eq_true] at h
    rw [xnodes, hasLiWithId, isLiKey_false key hkey c h.1, ih h.2]
    rfl

theorem parentsXs_xnodes (key : Chars) (l : List XNode) :
    parentsWithLiXs key (xnodes l) = l.flatMap (parentsWithLiOf key) := by
  induction l with
  | nil => rfl
  | cons c cs ih => rw [xnodes, parentsWithLiXs, ih, List.flatMap_cons]

/-- Inside the constructed list items, the probe finds nothing. -/
theorem parents_mkLis (key : Chars) (hkey : isProbeKey key) :
    ∀ (items : List XNodes) (s : Nat), noFnLiItems items = true →
      parentsWithLiXs key (xnodes (mkLis s items)) = [] := by
  intro items
  induction items with
  | nil => intro s _; rfl
  | cons it rest ih =>
    intro s h
    rw [noFnLiItems, List.all_cons, Bool.and_eq_true] at h
    rw [mkLis, xnodes, parentsWithLiXs, parentsWithLiOf,
      hasLi_false_of_noFnLi key hkey it h.1,
      parents_nil_of_noFnLi_xs key hkey it h.1, ih (s + 1) h.2]
    rfl

/-- Clean sibling lists contribute no probe parents. -/
theorem parentsL_nil (key : Chars) (hkey : isProbeKey key) :
    ∀ l : List XNode, noFnLiL l = true → l.flatMap (parentsWithLiOf key) = [] := by
  intro l
  induction l with
  | nil => intro _; rfl
  | cons c cs ih =>
    intro h
    rw [noFnLiL, List.all_cons, Bool.and_eq_true] at h
    rw [List.flatMap_cons, parents_nil_of_noFnLi_of key hkey c h.1, List.nil_append]
    exact ih h.2

/-- Probe characterization on the constructed document: the only candidate
parent is the footnote list itself. -/
theorem parents_mkDoc (key : Chars) (hkey : isProbeKey key)
    (main : List XNode) (items : List XNodes) (s : Nat)
    (hmain : noFnLiL main = true) (hitems : noFnLiItems items = true) :
    parentsWithLiOf key (mkDoc main s items)
      = if hasLiWithId key (xnodes (mkLis s items)) then [mkOl s items] else [] := by
  have holtag : (decide ((mkOl s items).tag = chars "li")
      && decide (getAttr (mkOl s items) (chars "id") = some key)) = false := by
    rw [mkOl, Bool.and_eq_false_iff]
    left
    exact decide_eq_false (by
      intro hcon
      exact absurd (by simpa [XNode.tag] using hcon) (by decide))
  have hroot : hasLiWithId key (xnodes (main ++ [mkOl s items])) = false := by
    rw [hasLi_xnodes_append, hasLi_false_of_noFnLiL key hkey main hmain, Bool.false_or]
    rw [xnodes, xnodes, hasLiWithId, holtag, hasLiWithId]
    rfl
  rw [mkDoc, parentsWithLiOf, hroot]
  simp only [Bool.false_eq_true, if_false, List.nil_append]
  rw [parentsXs_xnodes, List.flatMap_append, parentsL_nil key hkey main hmain]
  rw [List.flatMap_cons, List.flatMap_nil, List.append_nil, List.nil_append]
  rw [mkOl, parentsWithLiOf, parents_mkLis key hkey items s hitems, List.append_nil]

theorem toList_xnodes (l : List XNode) : (xnodes l).toList = l := by
  induction l with
  | nil => rfl
  | cons c cs ih => rw [xnodes, XNodes.toList, ih]

theorem hasLi_one (it : XNodes) (rest : List XNodes) :
    hasLiWithId (chars "footnote-1") (xnodes (mkLis 1 (it :: rest))) = true := rfl

theorem hasLi_zero_two (it0 it1 : XNodes) (rest : List XNodes) :
    hasLiWithId (chars "footnote-1") (xnodes (mkLis 0 (it0 :: it1 :: rest))) = true := rfl

theorem hasLi_zero_single (it : XNodes) :
    hasLiWithId (chars "footnote-1") (xnodes (mkLis 0 [it])) = false := rfl

theorem hasLi_zero_probe0 (it : XNodes) (rest : List XNodes) :
    hasLiWithId (chars "footnote-0") (xnodes (mkLis 0 (it :: rest))) = true := rfl

theorem frags_mkLis (f : XNode → Chars) : ∀ (items : List XNodes) (s : Nat),
    (mkLis s items).flatMap (fun li => li.children.toList.map f)
      = items.flatMap (fun it => it.toList.map f) := by
  intro items
  induction items with
  | nil => intro s; rfl
  | cons it rest ih =>
    intro s
    rw [mkLis, List.flatMap_cons, List.flatMap_cons, ih (s + 1)]
    rfl

/-- Extraction on a document keyed from 1: one fragment per item paragraph. -/
theorem create_footnotes_mkDoc1 (main : List XNode) (items : List XNodes) (ab : Chars)
    (hmain : noFnLiL main = true) (hitems : noFnLiItems items = true) :
    create_footnotes_list (mkDoc main 1 items) ab = itemFrags ab items := by
  have hp1 := parents_mkDoc (chars "footnote-1") (Or.inr rfl) main items 1 hmain hitems
  cases items with
  | nil =>
    have hp0 := parents_mkDoc (chars "footnote-0") (Or.inl rfl) main [] 1 hmain hitems
    simp only [create_footnotes_list, hp1, hp0]
    rfl
  | cons it rest =>
    simp only [create_footnotes_list, hp1, hasLi_one it rest, if_true]
    simp only [List.isEmpty_cons, Bool.false_eq_true, if_false]
    rw [List.flatMap_cons, List.flatMap_nil, List.append_nil]
    show (xnodes (mkLis 1 (it :: rest))).toList.flatMap _ = _
    rw [toList_xnodes]
    exact frags_mkLis _ (it :: rest) 1

/-- Extraction on a document keyed from 0: the probe for item 1 succeeds
when the list has at least two items and falls back to item 0 otherwise; in
every case one fragment per item paragraph. -/
theorem create_footnotes_mkDoc0 (main : List XNode) (items : List XNodes) (ab : Chars)
    (hmain : noFnLiL main = true) (hitems : noFnLiItems items = true) :
    create_footnotes_list (mkDoc main 0 items) ab = itemFrags ab items := by
  have hp1 := parents_mkDoc (chars "footnote-1") (Or.inr rfl) main items 0 hmain hitems
  have hp0 := parents_mkDoc (chars "footnote-0") (Or.inl rfl) main items 0 hmain hitems
  cases items with
  | nil =>
    simp only [create_footnotes_list, hp1, hp0]
    rfl
  | cons it rest =>
    cases rest with
    | nil =>
      simp only [create_footnotes_list, hp1, hp0, hasLi_zero_single it,
        Bool.false_eq_true, if_false, hasLi_zero_probe0 it [], if_true]
      simp only [List.isEmpty_nil, if_true]
      rw [List.flatMap_cons, List.flatMap_nil, List.append_nil]
      show (xnodes (mkLis 0 [it])).toList.flatMap _ = _
      rw [toList_xnodes]
      exact frags_mkLis _ [it] 0
    | cons it2 rest2 =>
      simp only [create_footnotes_list, hp1, hasLi_zero_two it it2 rest2, if_true]
      simp only [List.isEmpty_cons, Bool.false_eq_true, if_false]
      rw [List.flatMap_cons, List.flatMap_nil, List.append_nil]
      show (xnodes (mkLis 0 (it :: it2 :: rest2))).toList.flatMap _ = _
      rw [toList_xnodes]
      exact frags_mkLis _ (it :: it2 :: rest2) 0

theorem xnodes_append (l1 l2 : List XNode) :
    xnodes (l1 ++ l2) = appendXs (xnodes l1) (xnodes l2) := by
  induction l1 with
  | nil => rfl
  | cons c cs ih => rw [List.cons_append, xnodes, xnodes, ih, appendXs]

theorem tooltipTextsXs_append : ∀ a b : XNodes,
    tooltipTextsXs (appendXs a b) = tooltipTextsXs a ++ tooltipTextsXs b
  | .nil, b => by rw [appendXs, tooltipTextsXs, List.nil_append]
  | .cons c cs, b => by
    rw [appendXs, tooltipTextsXs, tooltipTextsXs, tooltipTextsXs_append cs b,
      List.append_assoc]

/-- Injection over a concatenation: the left part runs first, the counter
threads into the right part. -/
theorem insertFnXs_append (fs : List Chars) : ∀ (a b : XNodes) (i : Nat),
    insertFnXs fs i (appendXs a b)
      = match insertFnXs fs i a with
        | .error e => .error e
        | .ok r =>
          match insertFnXs fs r.snd b with
          | .error e => .error e
          | .ok r2 => .ok (appendXs r.fst r2.fst, r2.snd)
  | .nil, b, i => by
    cases hb : insertFnXs fs i b with
    | error e => simp [appendXs, insertFnXs, hb]
    | ok r2 => simp [appendXs, insertFnXs, hb]
  | .cons c cs, b, i => by
    cases hc : insertFnOf fs i c with
    | error e => simp [appendXs, insertFnXs, hc]
    | ok r1 =>
      obtain ⟨c2, i1⟩ := r1
      have ih := insertFnXs_append fs cs b i1
      cases hcs : insertFnXs fs i1 cs with
      | error e =>
        rw [hcs] at ih
        simp only [] at ih
        simp [appendXs, insertFnXs, hc, ih, hcs]
      | ok rcs =>
        obtain ⟨cs2, i2⟩ := rcs
        rw [hcs] at ih
        simp only [] at ih
        cases hb : insertFnXs fs i2 b with
        | error e =>
          rw [hb] at ih
          simp [appendXs, insertFnXs, hc, ih, hcs, hb]
        | ok rb =>
          rw [hb] at ih
          simp [appendXs, insertFnXs, hc, ih, hcs, hb]

/-- The injection treats the two keyings of the footnote list identically:
the item keys sit on `li` attributes, which the marker match never reads, so
the produced tooltip texts and the final counter agree. -/
theorem insertFn_mkLis_offset (fs : List Chars) : ∀ (items : List XNodes) (s1 s2 i : Nat),
    (insertFnXs fs i (xnodes (mkLis s1 items))).map (fun r => (tooltipTextsXs r.fst, r.snd))
      = (insertFnXs fs i (xnodes (mkLis s2 items))).map (fun r => (tooltipTextsXs r.fst, r.snd)) := by
  intro items
  induction items with
  | nil => intro s1 s2 i; rfl
  | cons it rest ih =>
    intro s1 s2 i
    rw [mkLis, mkLis, xnodes, xnodes, insertFnXs, insertFnXs]
    rw [insertFnOf, insertFnOf]
    have h1 : isFootnoteSup (.elem (chars "li") [(chars "id", fnKey s1)] [] it []) = false := rfl
    have h2 : isFootnoteSup (.elem (chars "li") [(chars "id", fnKey s2)] [] it []) = false := rfl
    rw [h1, h2]
    simp only [Bool.false_eq_true, if_false]
    cases h : insertFnXs fs i it with
    | error e => rfl
    | ok r =>
      obtain ⟨it2, ri⟩ := r
      have ihr := ih (s1 + 1) (s2 + 1) ri
      cases ha : insertFnXs fs ri (xnodes (mkLis (s1 + 1) rest)) with
      | error e1 =>
        cases hb : insertFnXs fs ri (xnodes (mkLis (s2 + 1) rest)) with
        | error e2 =>
          rw [ha, hb] at ihr
          simp only [Except.map, Except.error.injEq] at ihr
          simp only [ha, hb, ihr]
        | ok r2 =>
          rw [ha, hb] at ihr
          simp [Except.map] at ihr
      | ok r1 =>
        cases hb : insertFnXs fs ri (xnodes (mkLis (s2 + 1) rest)) with
        | error e2 =>
          rw [ha, hb] at ihr
          simp [Except.map] at ihr
        | ok r2 =>
          rw [ha, hb] at ihr
          simp only [Except.map, Except.ok.injEq, Prod.mk.injEq] at ihr
          obtain ⟨rc1, j1⟩ := r1
          obtain ⟨rc2, j2⟩ := r2
          simp only [ha, hb, Except.map, Except.ok.injEq, Prod.mk.injEq] at ihr ⊢
          refine ⟨?_, ihr.2⟩
          rw [tooltipTextsXs, tooltipTextsXs, tooltipTextsOf, tooltipTextsOf]
          have hnt1 : isTooltipTA (chars "li") [(chars "id", fnKey s1)] = false := rfl
          have hnt2 : isTooltipTA (chars "li") [(chars "id", fnKey s2)] = false := rfl
          rw [hnt1, hnt2]
          simp only [Bool.false_eq_true, if_false, List.nil_append]
          rw [ihr.1]

/-- Tooltip injection produces the same tooltip texts on both keyings of the
whole document. -/
theorem insert_mkDoc_offset (fs : List Chars) (main : List XNode) (items : List XNodes) :
    (insert_footnotes true (mkDoc main 0 items) fs).map tooltipTextsOf
      = (insert_footnotes true (mkDoc main 1 items) fs).map tooltipTextsOf := by
  rw [insert_footnotes, insert_footnotes]
  simp only [if_true]
  rw [mkDoc, mkDoc, insertFnOf, insertFnOf]
  have hb0 : isFootnoteSup
      (.elem (chars "body") [] [] (xnodes (main ++ [mkOl 0 items])) []) = false := rfl
  have hb1 : isFootnoteSup
      (.elem (chars "body") [] [] (xnodes (main ++ [mkOl 1 items])) []) = false := rfl
  rw [hb0, hb1]
  simp only [Bool.false_eq_true, if_false]
  rw [xnodes_append, xnodes_append]
  rw [insertFnXs_append fs (xnodes main) (xnodes [mkOl 0 items]) 0,
    insertFnXs_append fs (xnodes main) (xnodes [mkOl 1 items]) 0]
  cases hm : insertFnXs fs 0 (xnodes main) with
  | error e => simp only [hm, Except.map]
  | ok rm =>
    obtain ⟨m2, i1⟩ := rm
    simp only [hm]
    rw [xnodes, xnodes, xnodes, insertFnXs, insertFnXs]
    rw [mkOl, mkOl, insertFnOf, insertFnOf]
    have ho0 : isFootnoteSup
        (.elem (chars "ol") [] [] (xnodes (mkLis 0 items)) []) = false := rfl
    have ho1 : isFootnoteSup
        (.elem (chars "ol") [] [] (xnodes (mkLis 1 items)) []) = false := rfl
    rw [ho0, ho1]
    simp only [Bool.false_eq_true, if_false]
    have hoff := insertFn_mkLis_offset fs items 0 1 i1
    cases ha : insertFnXs fs i1 (xnodes (mkLis 0 items)) with
    | error e1 =>
      cases hb : insertFnXs fs i1 (xnodes (mkLis 1 items)) with
      | error e2 =>
        rw [ha, hb] at hoff
        simp only [Except.map, Except.error.injEq] at hoff
        simp only [ha, hb, hoff, Except.map]
      | ok r2 =>
        rw [ha, hb] at hoff
        simp [Except.map] at hoff
    | ok r1 =>
      cases hb : insertFnXs fs i1 (xnodes (mkLis 1 items)) with
      | error e2 =>
        rw [ha, hb] at hoff
        simp [Except.map] at hoff
      | ok r2 =>
        rw [ha, hb] at hoff
        simp only [Except.map, Except.ok.injEq, Prod.mk.injEq] at hoff
        obtain ⟨rc1, j1⟩ := r1
        obtain ⟨rc2, j2⟩ := r2
        simp only [Except.ok.injEq, Prod.mk.injEq] at hoff
        simp only [ha, hb, insertFnXs, Except.map, Except.ok.injEq]
        rw [tooltipTextsOf, tooltipTextsOf]
        have hbt : isTooltipTA (chars "body") ([] : List (Chars × Chars)) = false := rfl
        rw [hbt]
        simp only [Bool.false_eq_true, if_false, List.nil_append]
        rw [tooltipTextsXs_append, tooltipTextsXs_append]
        rw [tooltipTextsXs, tooltipTextsXs, tooltipTextsXs, tooltipTextsXs]
        rw [tooltipTextsOf, tooltipTextsOf]
        have hot : isTooltipTA (chars "ol") ([] : List (Chars × Chars)) = false := rfl
        rw [hot]
        simp only [Bool.false_eq_true, if_false, List.nil_append, List.append_nil]
        rw [hoff.1]

/-! ### Theorem for C4 -/

/-- C4: two input trees identical except that the footnote list of one is
keyed from `footnote-0` and the other from `footnote-1` yield identical
extracted fragments (the probe tries item 1 and falls back to item 0, and a
zero-keyed list of two or more items still contains item 1 — either way the
whole parent list is consumed), and after abbreviation and slash hinting the
injector, which pairs the Nth reference marker in document order with the
Nth fragment, produces identical tooltip texts. -/
theorem footnote_offset_normalization
    (main : List XNode) (items : List XNodes) (ab : Chars)
    (hmain : noFnLiL main = true) (hitems : noFnLiItems items = true) :
    create_footnotes_list (mkDoc main 0 items) ab
      = create_footnotes_list (mkDoc main 1 items) ab
    ∧ (insert_footnotes true (mkDoc main 0 items)
        (add_wbr_footnotes
          (abbreviate_footnotes (create_footnotes_list (mkDoc main 0 items) ab) ab).fst
          ab)).map tooltipTextsOf
      = (insert_footnotes true (mkDoc main 1 items)
        (add_wbr_footnotes
          (abbreviate_footnotes (create_footnotes_list (mkDoc main 1 items) ab) ab).fst
          ab)).map tooltipTextsOf := by
  have h0 := create_footnotes_mkDoc0 main items ab hmain hitems
  have h1 := create_footnotes_mkDoc1 main items ab hmain hitems
  refine ⟨h0.trans h1.symm, ?_⟩
  rw [h0, h1]
  exact insert_mkDoc_offset
    (add_wbr_footnotes (abbreviate_footnotes (itemFrags ab items) ab).fst ab) main items

/-- Main-text content for the C4 witness: a paragraph with one footnote
reference marker. -/
def c4main : List XNode :=
  [.elem (chars "p") [] (chars "Text")
    (.cons (.elem (chars "sup") [] []
      (.cons (.elem (chars "a")
        [(chars "href", chars "#footnote-1"), (chars "id", chars "footnote-ref-1")]
        (chars "[1]") .nil []) .nil) []) .nil) []]

/-- Footnote item content for the C4 witness. -/
def c4items : List XNodes :=
  [.cons (.elem (chars "p") [] (chars "First note.")
    (.cons (.elem (chars "a") [(chars "href", chars "#footnote-ref-1")]
      (chars "↑") .nil []) .nil) []) .nil]

/-- Witness for `footnote_offset_normalization` on a one-footnote document
with empty abbreviation threshold. -/
theorem footnote_offset_normalization_witness :
    create_footnotes_list (mkDoc c4main 0 c4items) []
      = create_footnotes_list (mkDoc c4main 1 c4items) []
    ∧ (insert_footnotes true (mkDoc c4main 0 c4items)
        (add_wbr_footnotes
          (abbreviate_footnotes (create_footnotes_list (mkDoc c4main 0 c4items) []) []).fst
          [])).map tooltipTextsOf
      = (insert_footnotes true (mkDoc c4main 1 c4items)
        (add_wbr_footnotes
          (abbreviate_footnotes (create_footnotes_list (mkDoc c4main 1 c4items) []) []).fst
          [])).map tooltipTextsOf :=
  footnote_offset_normalization c4main c4items [] (by decide) (by decide)

/-! ## Assembly and entity normalization (`assemble_html`, `escape_unescape`) -/

/-- Modify the first child (`bodyxml[0]`), `none` when it does not exist. -/
def withChild0 (f : XNode → XNode) : XNode → Option XNode
  | .elem t a tx (.cons c0 rest) tl => some (.elem t a tx (.cons (f c0) rest) tl)
  | _ => none

/-- Modify `bodyxml[1][0]`, `none` when those children do not exist. -/
def withChild10 (f : XNode → XNode) : XNode → Option XNode
  | .elem t a tx (.cons c0 (.cons (.elem t1 a1 tx1 (.cons d0 drest) tl1) rest)) tl =>
    some (.elem t a tx
      (.cons c0 (.cons (.elem t1 a1 tx1 (.cons (f d0) drest) tl1) rest)) tl)
  | _ => none

/-- Replace a node's tail text. -/
def withTail (n : XNode) (s : Chars) : XNode :=
  match n with
  | .elem tg a tx cs _ => .elem tg a tx cs s

/-- Whether any node of a child sequence carries tail text (a text node in
the parent's child list, in libxml2 terms). -/
def anyTail : XNodes → Bool
  | .nil => false
  | .cons c cs => !(XNode.tail c).isEmpty || anyTail cs

/-- Indentation for one nesting level of libxml2's formatted output: two
spaces per level, capped at 60 characters (`MAX_INDENT`). -/
def indentStr (level : Nat) : Chars := List.replicate (2 * min level 30) ' '

mutual
/-- Formatted serialization of one element, the model of
`etree.tostring(…, pretty_print=True)` on that element (libxml2
`xmlNodeDumpOutput` with format on): children go one per line, indented,
unless the element holds any text node — non-empty text, or a non-empty
tail on any child — in which case formatting is disabled for the whole
subtree and the output is the plain serialization. -/
def prettyNode (level : Nat) (format : Bool) : XNode → Chars
  | .elem tg a tx cs tl =>
    '<' :: tg ++ serializeAttrs a ++
      (if tx.isEmpty && cs.isNil then chars "/>"
       else
         if format && tx.isEmpty && !(anyTail cs) then
           '>' :: (chars "\n" ++ prettyFmtChildren (level + 1) cs ++ indentStr level)
             ++ ('<' :: '/' :: tg ++ ['>'])
         else
           '>' :: (escText tx ++ prettyInlineChildren (level + 1) cs)
             ++ ('<' :: '/' :: tg ++ ['>']))
/-- Formatted child list: indent, child, newline for each child (child
tails are all empty here, or formatting would have been disabled). -/
def prettyFmtChildren (level : Nat) : XNodes → Chars
  | .nil => []
  | .cons c cs =>
    indentStr level ++ prettyNode level true c ++ chars "\n"
      ++ prettyFmtChildren level cs
/-- Unformatted child list: plain child serialization with tails. -/
def prettyInlineChildren (level : Nat) : XNodes → Chars
  | .nil => []
  | .cons c cs =>
    prettyNode level false c ++ escText (XNode.tail c) ++ prettyInlineChildren level cs
end

/-- `etree.tostring(element, encoding='unicode', pretty_print=True)` as the
assembler calls it: the formatted element, its tail, then the trailing
newline lxml appends in pretty mode. -/
def prettyRoot (t : XNode) : Chars :=
  prettyNode 0 true t ++ escText (XNode.tail t) ++ chars "\n"

mutual
/-- The whitespace decoration pretty printing amounts to: where formatting
is active (empty text, no child tails, children present), the element's
text becomes newline-plus-indent and each child receives a newline-plus-
indent tail; elsewhere the subtree is untouched. Plain serialization of
the annotated tree is exactly the pretty output, and the annotated tree is
what re-parsing the pretty output yields. -/
def annotate (level : Nat) : XNode → XNode
  | .elem tg a tx cs tl =>
    if tx.isEmpty && !(anyTail cs) && !(cs.isNil) then
      .elem tg a (chars "\n" ++ indentStr (level + 1))
        (annotateKids (level + 1) level cs) tl
    else .elem tg a tx cs tl
/-- Decorate a formatted child list: every child gets tail newline+indent
at its own level, the last child newline+indent at the parent's level. -/
def annotateKids (level parent : Nat) : XNodes → XNodes
  | .nil => .nil
  | .cons c cs =>
    .cons (withTail (annotate level c)
        (chars "\n" ++ indentStr (if cs.isNil then parent else level)))
      (annotateKids level parent cs)
end

/-- Embedding of `assemble_html`: splice the navigation grid (at `bodyxml[0]`
in body-only mode, at `bodyxml[1][0]` otherwise), then the script block, then
the style block, each at position 0; pretty-serialize, prepending the doctype
declaration when a full document is exported. -/
def assemble_html (navigationVar bodyCheckVar cssCheckVar : Bool)
    (cssXML navGridDiv : XNode) (bodyxml : XNode) (javascriptXML : XNode)
    (javascriptCheckVar : Bool) : Except Chars Chars :=
  let step1 : Option XNode :=
    if navigationVar then
      if bodyCheckVar then withChild0 (prependChild navGridDiv) bodyxml
      else withChild10 (prependChild navGridDiv) bodyxml
    else some bodyxml
  match step1 with
  | none => .error (chars "IndexError")
  | some r1 =>
    let step2 : Option XNode :=
      if javascriptCheckVar then withChild0 (prependChild javascriptXML) r1 else some r1
    match step2 with
    | none => .error (chars "IndexError")
    | some r2 =>
      let step3 : Option XNode :=
        if cssCheckVar then withChild0 (prependChild cssXML) r2 else some r2
      match step3 with
      | none => .error (chars "IndexError")
      | some r3 =>
        .ok ((if bodyCheckVar then [] else chars "<!DOCTYPE html>\n") ++ prettyRoot r3)

/-- One character of `html.escape` (quote mode, as the source uses it). -/
def escHtmlChar (c : Char) : Chars :=
  if c = '&' then chars "&amp;"
  else if c = '<' then chars "&lt;"
  else if c = '>' then chars "&gt;"
  else if c = '"' then chars "&quot;"
  else if c = Char.ofNat 39 then chars "&#x27;"
  else [c]

/-- Model of `html.escape` used to re-escape code samples. -/
def escapeHtml (s : Chars) : Chars := s.flatMap escHtmlChar

/-- Decode one entity reference (after the ampersand), covering exactly the
escapes the serializer and `html.escape` produce. -/
def decodeEntity : Chars → Option (Char × Chars)
  | 'a' :: 'm' :: 'p' :: ';' :: r => some ('&', r)
  | 'l' :: 't' :: ';' :: r => some ('<', r)
  | 'g' :: 't' :: ';' :: r => some ('>', r)
  | 'q' :: 'u' :: 'o' :: 't' :: ';' :: r => some ('"', r)
  | '#' :: '3' :: '9' :: ';' :: r => some (Char.ofNat 39, r)
  | '#' :: 'x' :: '2' :: '7' :: ';' :: r => some (Char.ofNat 39, r)
  | _ => none

/-- Fueled worker for `html.unescape`; every step consumes at least one
character, so fuel equal to the length never runs out. -/
def unescF : Nat → Chars → Chars
  | 0, s => s
  | _ + 1, [] => []
  | fuel + 1, c :: rest =>
    if c = '&' then
      match decodeEntity rest with
      | some (d, r) => d :: unescF fuel r
      | none => c :: unescF fuel rest
    else c :: unescF fuel rest

/-- Model of `html.unescape` on the entities the serializer and `html.escape`
produce; any other ampersand sequence is left as it stands. -/
def unescapeHtml (s : Chars) : Chars := unescF s.length s

/-- Fueled scanner for the `(<code>)(.*?)(</code>)` substitution: the content
of every code region is re-escaped. -/
def reEscapeCodeF : Nat → Chars → Chars
  | 0, s => s
  | fuel + 1, s =>
    match s with
    | [] => []
    | c :: rest =>
      if (chars "<code>").isPrefixOf (c :: rest) then
        match splitFirst (chars "</code>") ((c :: rest).drop 6) with
        | some (content, after) =>
          chars "<code>" ++ escapeHtml content ++ chars "</code>" ++ reEscapeCodeF fuel after
        | none => c :: reEscapeCodeF fuel rest
      else c :: reEscapeCodeF fuel rest

/-- The code re-escape pass. -/
def reEscapeCode (s : Chars) : Chars := reEscapeCodeF s.length s

/-- Embedding of `escape_unescape`: unescape the whole serialized document,
then re-escape the contents of code regions. -/
def escape_unescape (exportableBodyxml : Chars) : Chars :=
  reEscapeCode (unescapeHtml exportableBodyxml)

/-! ## Re-parsing (model of `etree.fromstring` on serialized output) -/

/-- Characters allowed in tag and attribute names. -/
def isNameChar (c : Char) : Bool := c.isAlphanum || c = '-' || c = '_'

/-- Text scanning up to the next `<`, decoding the known entities and
rejecting any other ampersand, as the XML parser rejects bare `&`. -/
def parseTextF : Nat → Chars → Option (Chars × Chars)
  | 0, _ => none
  | _ + 1, [] => some ([], [])
  | fuel + 1, c :: rest =>
    if c = '<' then some ([], c :: rest)
    else if c = '&' then
      match decodeEntity rest with
      | some (d, r) => (parseTextF fuel r).map (fun p => (d :: p.fst, p.snd))
      | none => none
    else (parseTextF fuel rest).map (fun p => (c :: p.fst, p.snd))

/-- Text scanner entry point. -/
def parseText (s : Chars) : Option (Chars × Chars) := parseTextF (s.length + 1) s

/-- Attribute value scanning up to the closing quote, same entity rules. -/
def parseAttrValueF : Nat → Chars → Option (Chars × Chars)
  | 0, _ => none
  | _ + 1, [] => none
  | fuel + 1, c :: rest =>
    if c = '"' then some ([], rest)
    else if c = '<' then none
    else if c = '&' then
      match decodeEntity rest with
      | some (d, r) => (parseAttrValueF fuel r).map (fun p => (d :: p.fst, p.snd))
      | none => none
    else (parseAttrValueF fuel rest).map (fun p => (c :: p.fst, p.snd))

/-- Attribute value scanner entry point. -/
def parseAttrValue (s : Chars) : Option (Chars × Chars) :=
  parseAttrValueF (s.length + 1) s

/-- Fueled attribute-list scanner: each attribute is ` name="value"`. -/
def parseAttrsF : Nat → Chars → Option (List (Chars × Chars) × Chars)
  | 0, _ => none
  | fuel + 1, s =>
    match s with
    | [] => some ([], [])
    | c :: rest =>
      if c = ' ' then
        let k := rest.takeWhile isNameChar
        if k.isEmpty then none
        else
          match rest.dropWhile isNameChar with
          | '=' :: '"' :: rest2 =>
            match parseAttrValue rest2 with
            | none => none
            | some (v, rest3) =>
              (parseAttrsF fuel rest3).map (fun p => ((k, v) :: p.fst, p.snd))
          | _ => none
      else some ([], c :: rest)

/-- Attribute-list scanner. -/
def parseAttrs (s : Chars) : Option (List (Chars × Chars) × Chars) :=
  parseAttrsF (s.length + 1) s

/-- Fueled sibling-sequence scanner: stops before a closing tag or at the
end; otherwise one element (self-closing or with content and a matching
closing tag), its tail text, and the following siblings. -/
def parseItems : Nat → Chars → Option (XNodes × Chars)
  | 0, _ => none
  | fuel + 1, s =>
    if (chars "</").isPrefixOf s then some (.nil, s)
    else
      match s with
      | [] => some (.nil, [])
      | '<' :: rest =>
        let t := rest.takeWhile isNameChar
        if t.isEmpty then none
        else
          match parseAttrs (rest.dropWhile isNameChar) with
          | none => none
          | some (attrs, rest2) =>
            match rest2 with
            | '/' :: '>' :: rest3 =>
              match parseText rest3 with
              | none => none
              | some (tl, rest4) =>
                match parseItems fuel rest4 with
                | none => none
                | some (cs, rest5) => some (.cons (.elem t attrs [] .nil tl) cs, rest5)
            | '>' :: rest3 =>
              match parseText rest3 with
              | none => none
              | some (tx, rest4) =>
                match parseItems fuel rest4 with
                | none => none
                | some (ccs, rest5) =>
                  match rest5 with
                  | '<' :: '/' :: rest6 =>
                    if rest6.takeWhile isNameChar = t then
                      match rest6.dropWhile isNameChar with
                      | '>' :: rest7 =>
                        match parseText rest7 with
                        | none => none
                        | some (tl, rest8) =>
                          match parseItems fuel rest8 with
                          | none => none
                          | some (cs, rest9) =>
                            some (.cons (.elem t attrs tx ccs tl) cs, rest9)
                      | _ => none
                    else none
                  | _ => none
            | _ => none
      | _ => none

/-- XML whitespace. -/
def isXmlSpace (c : Char) : Bool := c = ' ' || c = '\n' || c = '\t' || c = '\r'

/-- Parse one whole document (an optional doctype line, then exactly one
root element consuming the rest of the input). Text after the root element
is document-level miscellaneous content: whitespace is discarded — the root
keeps no tail, as `etree.fromstring` behaves — and anything else is a parse
error. -/
def parseDoc (s : Chars) : Option XNode :=
  let s2 := if (chars "<!DOCTYPE html>\n").isPrefixOf s
    then s.drop (chars "<!DOCTYPE html>\n").length else s
  match parseItems (s2.length + 1) s2 with
  | some (.cons n .nil, []) =>
    if (XNode.tail n).all isXmlSpace then some (withTail n []) else none
  | _ => none

/-! ## Cleanliness: documents whose serialization uses no entities -/

/-- Text free of markup-significant characters. -/
def textOkChar (c : Char) : Bool := !(c = '&' || c = '<' || c = '>')

/-- Clean text. -/
def textOk (s : Chars) : Bool := s.all textOkChar

/-- Attribute values additionally exclude the quote. -/
def valOkChar (c : Char) : Bool := !(c = '&' || c = '<' || c = '>' || c = '"')

/-- Clean attribute value. -/
def valOk (s : Chars) : Bool := s.all valOkChar

/-- Valid name: non-empty, name characters only. -/
def tagOk (t : Chars) : Bool := !t.isEmpty && t.all isNameChar

/-- Clean attribute list. -/
def attrsOk (a : List (Chars × Chars)) : Bool :=
  a.all (fun p => tagOk p.fst && valOk p.snd)

mutual
/-- A subtree whose serialization introduces no entity escapes. -/
def cleanOf : XNode → Bool
  | .elem t a tx cs tl =>
    tagOk t && attrsOk a && textOk tx && textOk tl && cleanXs cs
/-- Sequence version. -/
def cleanXs : XNodes → Bool
  | .nil => true
  | .cons c cs => cleanOf c && cleanXs cs
end

/-- A clean document: clean tree with no text after the root element. -/
def cleanDoc (t : XNode) : Bool := cleanOf t && t.tail.isEmpty

/-! ### Identity of the escape passes on clean serializations -/

theorem escText_clean (tx : Chars) (h : textOk tx = true) : escText tx = tx := by
  induction tx with
  | nil => rfl
  | cons c tx ih =>
    simp only [textOk, List.all_cons, Bool.and_eq_true] at h
    have hc : textOkChar c = true := h.1
    simp only [textOkChar, Bool.not_eq_true', Bool.or_eq_false_iff, decide_eq_false_iff_not] at hc
    simp only [escText, List.flatMap_cons, escTextChar, if_neg hc.1.1, if_neg hc.1.2,
      if_neg hc.2]
    simpa [escText] using ih h.2

theorem escAttr_clean (v : Chars) (h : valOk v = true) : escAttr v = v := by
  induction v with
  | nil => rfl
  | cons c v ih =>
    simp only [valOk, List.all_cons, Bool.and_eq_true] at h
    have hc : valOkChar c = true := h.1
    simp only [valOkChar, Bool.not_eq_true', Bool.or_eq_false_iff, decide_eq_false_iff_not] at hc
    simp only [escAttr, List.flatMap_cons, escAttrChar, if_neg hc.1.1.1, if_neg hc.1.1.2,
      if_neg hc.1.2, if_neg hc.2]
    simpa [escAttr] using ih h.2

/-- Character predicate: not an ampersand. -/
def ampOk (c : Char) : Bool := !(c == '&')

theorem all_ampOk_of_all {p : Char → Bool} (hp : p '&' = false) (s : Chars)
    (h : s.all p = true) : s.all ampOk = true := by
  rw [List.all_eq_true] at h ⊢
  intro c hc
  have hpc := h c hc
  by_cases hx : c = '&'
  · subst hx; rw [hp] at hpc; exact absurd hpc (by simp)
  · simp [ampOk, hx]

theorem ampOk_serializeAttrs (a : List (Chars × Chars)) (h : attrsOk a = true) :
    (serializeAttrs a).all ampOk = true := by
  induction a with
  | nil => rfl
  | cons kv a ih =>
    obtain ⟨k, v⟩ := kv
    simp only [attrsOk, List.all_cons, Bool.and_eq_true] at h
    obtain ⟨⟨hk, hv⟩, ha⟩ := h
    have hk2 : k.all ampOk = true := by
      simp only [tagOk, Bool.and_eq_true] at hk
      exact all_ampOk_of_all (by decide) k hk.2
    have hv2 : (escAttr v).all ampOk = true := by
      rw [escAttr_clean v hv]
      exact all_ampOk_of_all (by decide) v hv
    have ih2 := ih (by simpa [attrsOk] using ha)
    simp only [serializeAttrs, List.all_append, List.all_cons, Bool.and_eq_true]
    repeat' apply And.intro
    all_goals first | decide | assumption

mutual
theorem ampOk_serializeNode :
    ∀ n : XNode, cleanOf n = true → (serializeNode n).all ampOk = true
  | .elem t a tx cs tl => by
    intro h
    have ihcs := ampOk_serializeNodes cs
    simp only [cleanOf, Bool.and_eq_true] at h
    obtain ⟨⟨⟨⟨ht, ha⟩, htx⟩, htl⟩, hcs⟩ := h
    have ht2 : t.all ampOk = true := by
      simp only [tagOk, Bool.and_eq_true] at ht
      exact all_ampOk_of_all (by decide) t ht.2
    have htx2 : (escText tx).all ampOk = true := by
      rw [escText_clean tx htx]; exact all_ampOk_of_all (by decide) tx htx
    have htl2 : (escText tl).all ampOk = true := by
      rw [escText_clean tl htl]; exact all_ampOk_of_all (by decide) tl htl
    have hbr : (if List.isEmpty tx = true ∧ cs.isNil = true then chars "/>"
        else '>' :: escText tx ++ serializeNodes cs ++ ('<' :: '/' :: t ++ ['>'])).all
          ampOk = true := by
      by_cases hsc : List.isEmpty tx = true ∧ cs.isNil = true
      · rw [if_pos hsc]; decide
      · rw [if_neg hsc]
        simp only [List.all_append, List.all_cons, Bool.and_eq_true]
        have hcs2 := ihcs hcs
        repeat' apply And.intro
        all_goals first | decide | assumption
    have ha2 := ampOk_serializeAttrs a ha
    simp only [serializeNode, List.all_append, List.all_cons, Bool.and_eq_true]
    repeat' apply And.intro
    all_goals first | decide | assumption

theorem ampOk_serializeNodes :
    ∀ cs : XNodes, cleanXs cs = true → (serializeNodes cs).all ampOk = true
  | .nil => by intro _; rfl
  | .cons c cs => by
    intro h
    have ihc := ampOk_serializeNode c
    have ihcs := ampOk_serializeNodes cs
    simp only [cleanXs, Bool.and_eq_true] at h
    simp only [serializeNodes, List.all_append, Bool.and_eq_true]
    exact ⟨ihc h.1, ihcs h.2⟩
end

theorem amp_not_mem_of_all (s : Chars) (h : s.all ampOk = true) : '&' ∉ s := by
  intro hmem
  have := List.all_eq_true.mp h _ hmem
  simp [ampOk] at this

theorem unescF_noAmp : ∀ (fuel : Nat) (s : Chars), '&' ∉ s → unescF fuel s = s := by
  intro fuel
  induction fuel with
  | zero => intro s _; rfl
  | succ fuel ih =>
    intro s h
    match s with
    | [] => rfl
    | c :: rest =>
      have hc : c ≠ '&' := fun hx => h (hx ▸ List.mem_cons_self c rest)
      have hrest := ih rest (fun hx => h (List.mem_cons_of_mem c hx))
      rw [unescF, if_neg hc, hrest]

theorem unescape_noAmp (s : Chars) (h : '&' ∉ s) : unescapeHtml s = s :=
  unescF_noAmp s.length s h

theorem reEscapeCodeF_noCode :
    ∀ (fuel : Nat) (s : Chars), strContains s (chars "<code>") = false →
      reEscapeCodeF fuel s = s := by
  intro fuel
  induction fuel with
  | zero => intro s _; rfl
  | succ fuel ih =>
    intro s h
    match s with
    | [] => rfl
    | c :: rest =>
      rw [strContains] at h
      by_cases hpre : (chars "<code>").isPrefixOf (c :: rest) = true
      · rw [if_pos hpre] at h; exact absurd h (by simp)
      · rw [if_neg hpre] at h
        rw [reEscapeCodeF, if_neg hpre, ih rest h]

theorem reEscapeCode_noCode (s : Chars) (h : strContains s (chars "<code>") = false) :
    reEscapeCode s = s := reEscapeCodeF_noCode s.length s h

theorem escape_unescape_clean (t : XNode) (hc : cleanOf t = true)
    (hcode : strContains (serializeNode t) (chars "<code>") = false) :
    escape_unescape (serializeNode t) = serializeNode t := by
  rw [escape_unescape,
    unescape_noAmp _ (amp_not_mem_of_all _ (ampOk_serializeNode t hc)),
    reEscapeCode_noCode _ hcode]

/-! ### Parser inversion on clean serializations -/

theorem takeWhile_append_all (p : Char → Bool) :
    ∀ (l1 l2 : Chars), l1.all p = true → (∀ c r, l2 = c :: r → p c = false) →
      (l1 ++ l2).takeWhile p = l1 ∧ (l1 ++ l2).dropWhile p = l2 := by
  intro l1
  induction l1 with
  | nil =>
    intro l2 _ h2
    match l2 with
    | [] => exact ⟨rfl, rfl⟩
    | c :: r =>
      have hpc := h2 c r rfl
      simp only [List.nil_append]
      constructor
      · simp [List.takeWhile_cons, hpc]
      · simp [List.dropWhile_cons, hpc]
  | cons a l1 ih =>
    intro l2 h1 h2
    simp only [List.all_cons, Bool.and_eq_true] at h1
    have ihr := ih l2 h1.2 h2
    simp only [List.cons_append]
    constructor
    · simp [List.takeWhile_cons, h1.1, ihr.1]
    · simp [List.dropWhile_cons, h1.1, ihr.2]

theorem parseTextF_clean :
    ∀ (tx : Chars) (fuel : Nat) (rest : Chars), textOk tx = true →
      (rest = [] ∨ ∃ r, rest = '<' :: r) →
      (tx ++ rest).length < fuel →
      parseTextF fuel (tx ++ rest) = some (tx, rest) := by
  intro tx
  induction tx with
  | nil =>
    intro fuel rest _ hstop hlen
    match fuel, hlen with
    | fuel + 1, _ =>
      rcases hstop with h | ⟨r, h⟩
      · subst h; rfl
      · subst h
        simp only [List.nil_append]
        rw [parseTextF, if_pos rfl]
  | cons c tx ih =>
    intro fuel rest h hstop hlen
    simp only [textOk, List.all_cons, Bool.and_eq_true] at h
    have hc := h.1
    simp only [textOkChar, Bool.not_eq_true', Bool.or_eq_false_iff,
      decide_eq_false_iff_not] at hc
    match fuel, hlen with
    | fuel + 1, hlen =>
      rw [List.cons_append, parseTextF, if_neg hc.1.2, if_neg hc.1.1,
        ih fuel rest h.2 hstop (by simp only [List.length_append, List.length_cons] at hlen ⊢; omega)]
      rfl

theorem parseText_clean (tx rest : Chars) (h : textOk tx = true)
    (hstop : rest = [] ∨ ∃ r, rest = '<' :: r) :
    parseText (tx ++ rest) = some (tx, rest) :=
  parseTextF_clean tx _ rest h hstop (Nat.lt_succ_self _)

theorem parseAttrValueF_clean :
    ∀ (v : Chars) (fuel : Nat) (rest : Chars), valOk v = true →
      (v ++ '"' :: rest).length < fuel →
      parseAttrValueF fuel (v ++ '"' :: rest) = some (v, rest) := by
  intro v
  induction v with
  | nil =>
    intro fuel rest _ hlen
    match fuel, hlen with
    | fuel + 1, _ =>
      simp only [List.nil_append]
      rw [parseAttrValueF, if_pos rfl]
  | cons c v ih =>
    intro fuel rest h hlen
    simp only [valOk, List.all_cons, Bool.and_eq_true] at h
    have hc := h.1
    simp only [valOkChar, Bool.not_eq_true', Bool.or_eq_false_iff,
      decide_eq_false_iff_not] at hc
    match fuel, hlen with
    | fuel + 1, hlen =>
      rw [List.cons_append, parseAttrValueF, if_neg hc.2, if_neg hc.1.1.2,
        if_neg hc.1.1.1,
        ih fuel rest h.2 (by simp only [List.length_append, List.length_cons] at hlen ⊢; omega)]
      rfl

theorem parseAttrValue_clean (v rest : Chars) (h : valOk v = true) :
    parseAttrValue (v ++ '"' :: rest) = some (v, rest) :=
  parseAttrValueF_clean v _ rest h (Nat.lt_succ_self _)

theorem serializeAttrs_length : ∀ a : List (Chars × Chars),
    a.length ≤ (serializeAttrs a).length := by
  intro a
  induction a with
  | nil => simp [serializeAttrs]
  | cons kv a ih =>
    obtain ⟨k, v⟩ := kv
    simp only [serializeAttrs, List.length_append, List.length_cons]
    omega

theorem parseAttrsF_clean :
    ∀ (a : List (Chars × Chars)) (fuel : Nat) (X : Chars), attrsOk a = true →
      a.length < fuel →
      (∀ c r, X = c :: r → c ≠ ' ') →
      parseAttrsF fuel (serializeAttrs a ++ X) = some (a, X) := by
  intro a
  induction a with
  | nil =>
    intro fuel X _ hlen hX
    match fuel, hlen with
    | fuel + 1, _ =>
      simp only [serializeAttrs, List.nil_append]
      match X with
      | [] => rfl
      | c :: r =>
        rw [parseAttrsF, if_neg (hX c r rfl)]
  | cons kv a ih =>
    obtain ⟨k, v⟩ := kv
    intro fuel X h hlen hX
    simp only [attrsOk, List.all_cons, Bool.and_eq_true] at h
    obtain ⟨⟨hk, hv⟩, ha⟩ := h
    have hkirr : k.isEmpty = false ∧ k.all isNameChar = true := by
      simp only [tagOk, Bool.and_eq_true, Bool.not_eq_true'] at hk
      exact hk
    match fuel, hlen with
    | fuel + 1, hlen =>
      have hdw := takeWhile_append_all isNameChar k
        ('=' :: '"' :: (escAttr v ++ '"' :: (serializeAttrs a ++ X))) hkirr.2
        (by intro c r hcr; injection hcr with h1 _; subst h1; decide)
      simp only [serializeAttrs, List.cons_append, List.append_assoc,
        List.nil_append]
      rw [parseAttrsF, if_pos rfl]
      simp only [List.cons_append] at hdw
      rw [hdw.1, hdw.2]
      simp only [hkirr.1, Bool.false_eq_true, if_false]
      rw [escAttr_clean v hv]
      simp only [parseAttrValue_clean v _ hv,
        ih fuel X (by simpa [attrsOk] using ha)
          (by simp only [List.length_cons] at hlen; omega) hX]
      rfl

theorem parseAttrs_clean (a : List (Chars × Chars)) (X : Chars)
    (h : attrsOk a = true) (hX : ∀ c r, X = c :: r → c ≠ ' ') :
    parseAttrs (serializeAttrs a ++ X) = some (a, X) := by
  refine parseAttrsF_clean a _ X h ?_ hX
  have h1 := serializeAttrs_length a
  simp only [List.length_append]
  omega

theorem serializeAttrs_head_not_name (a : List (Chars × Chars)) (X : Chars)
    (hX : ∀ c r, X = c :: r → isNameChar c = false) :
    ∀ c r, serializeAttrs a ++ X = c :: r → isNameChar c = false := by
  intro c r h
  match a with
  | [] => exact hX c r (by simpa [serializeAttrs] using h)
  | (k, v) :: a' =>
    simp only [serializeAttrs, List.cons_append] at h
    injection h with h1 _
    subst h1
    decide

theorem serializeNodes_stop (cs : XNodes) (rest : Chars)
    (h : rest = [] ∨ ∃ r, rest = '<' :: r) :
    serializeNodes cs ++ rest = [] ∨ ∃ r, serializeNodes cs ++ rest = '<' :: r := by
  match cs with
  | .nil => simpa [serializeNodes] using h
  | .cons c cs' =>
    right
    match c with
    | .elem t a tx ccs tl =>
      simp only [serializeNodes, serializeNode, List.cons_append, List.append_assoc]
      exact ⟨_, rfl⟩

theorem isNil_eq_nil : ∀ cs : XNodes, cs.isNil = true → cs = .nil
  | .nil, _ => rfl

theorem isEmpty_eq_nil (l : Chars) (h : l.isEmpty = true) : l = [] := by
  cases l with
  | nil => rfl
  | cons c r => exact absurd h (by simp [List.isEmpty])

theorem isPrefixOf_close_false (c2 : Char) (h : ('/' == c2) = false) (r : Chars) :
    (chars "</").isPrefixOf ('<' :: c2 :: r) = false := by
  simp [chars, List.isPrefixOf, h]

theorem isPrefixOf_doctype_false (c2 : Char) (h : ('!' == c2) = false) (r : Chars) :
    (chars "<!DOCTYPE html>\n").isPrefixOf ('<' :: c2 :: r) = false := by
  simp [chars, List.isPrefixOf, h]

theorem serializeNode_length_pos : ∀ n : XNode, 0 < (serializeNode n).length
  | .elem t a tx cs tl => by
    simp only [serializeNode, List.cons_append, List.length_append, List.length_cons]
    omega

theorem parseItems_ser :
    ∀ (fuel : Nat) (cs : XNodes) (rest : Chars), cleanXs cs = true →
      (serializeNodes cs ++ rest).length < fuel →
      (rest = [] ∨ ∃ r2, rest = '<' :: '/' :: r2) →
      parseItems fuel (serializeNodes cs ++ rest) = some (cs, rest) := by
  intro fuel
  induction fuel with
  | zero => intro cs rest _ h _; exact absurd h (Nat.not_lt_zero _)
  | succ fuel ih =>
    intro cs rest hclean hlen hstop
    match cs with
    | .nil =>
      simp only [serializeNodes, List.nil_append]
      rcases hstop with h | ⟨r2, h⟩
      · subst h; rfl
      · subst h
        rw [parseItems]
        simp [chars, List.isPrefixOf]
    | .cons c cs' =>
      match c with
      | .elem t a tx ccs tl =>
        simp only [cleanXs, cleanOf, Bool.and_eq_true] at hclean
        obtain ⟨⟨⟨⟨⟨ht, ha⟩, htx⟩, htl⟩, hccs⟩, hcs'⟩ := hclean
        have htne : t.isEmpty = false ∧ t.all isNameChar = true := by
          simp only [tagOk, Bool.and_eq_true, Bool.not_eq_true'] at ht
          exact ht
        match t, htne with
        | tc :: t', htne =>
          have htcname : isNameChar tc = true := by
            have := htne.2
            simp only [List.all_cons, Bool.and_eq_true] at this
            exact this.1
          have htcslash : ('/' == tc) = false := by
            rw [beq_eq_false_iff_ne]
            intro hx
            rw [← hx] at htcname
            exact absurd htcname (by decide)
          have hstop2 : serializeNodes cs' ++ rest = [] ∨
              ∃ r, serializeNodes cs' ++ rest = '<' :: r := by
            refine serializeNodes_stop cs' rest ?_
            rcases hstop with h | ⟨r2, h⟩
            · exact Or.inl h
            · exact Or.inr ⟨'/' :: r2, h⟩
          by_cases hsc : (tx.isEmpty && ccs.isNil) = true
          · -- self-closing form
            rw [Bool.and_eq_true] at hsc
            have htx0 : tx = [] := isEmpty_eq_nil tx hsc.1
            have hccs0 : ccs = .nil := isNil_eq_nil ccs hsc.2
            subst htx0; subst hccs0
            have hch : chars "/>" = '/' :: '>' :: [] := rfl
            simp only [serializeNodes, serializeNode, List.isEmpty_nil,
              XNodes.isNil, Bool.and_self, if_true, hch, escText_clean tl htl,
              List.cons_append, List.append_assoc, List.nil_append]
            rw [parseItems, isPrefixOf_close_false tc htcslash]
            simp only [Bool.false_eq_true, if_false]
            have hdw := takeWhile_append_all isNameChar (tc :: t')
              (serializeAttrs a ++ ('/' :: '>' :: (tl ++ (serializeNodes cs' ++ rest))))
              htne.2
              (serializeAttrs_head_not_name a _
                (by intro c r hcr; injection hcr with h1 _; subst h1; decide))
            simp only [List.cons_append] at hdw
            rw [hdw.1, hdw.2]
            simp only [List.isEmpty_cons, Bool.false_eq_true, if_false]
            rw [parseAttrs_clean a _ ha
              (by intro c r hcr; injection hcr with h1 _; subst h1; decide)]
            have hlen2 : (serializeNodes cs' ++ rest).length < fuel := by
              have h1 : serializeNodes
                  (XNodes.cons (XNode.elem (tc :: t') a [] XNodes.nil tl) cs')
                  = serializeNode (XNode.elem (tc :: t') a [] XNodes.nil tl)
                    ++ serializeNodes cs' := rfl
              have h2 := serializeNode_length_pos
                (XNode.elem (tc :: t') a [] XNodes.nil tl)
              rw [h1, List.append_assoc] at hlen
              simp only [List.length_append] at hlen ⊢
              omega
            simp only [parseText_clean tl _ htl hstop2,
              ih cs' rest hcs' hlen2 hstop]
          · -- open-close form
            simp only [serializeNodes, serializeNode, hsc, Bool.false_eq_true,
              if_false, escText_clean tl htl, escText_clean tx htx,
              List.cons_append, List.append_assoc, List.nil_append]
            rw [parseItems, isPrefixOf_close_false tc htcslash]
            simp only [Bool.false_eq_true, if_false]
            have hdw := takeWhile_append_all isNameChar (tc :: t')
              (serializeAttrs a ++ ('>' :: (tx ++ (serializeNodes ccs ++
                ('<' :: '/' :: (tc :: (t' ++ ('>' :: (tl ++
                  (serializeNodes cs' ++ rest))))))))))
              htne.2
              (serializeAttrs_head_not_name a _
                (by intro c r hcr; injection hcr with h1 _; subst h1; decide))
            simp only [List.cons_append] at hdw
            rw [hdw.1, hdw.2]
            simp only [List.isEmpty_cons, Bool.false_eq_true, if_false]
            rw [parseAttrs_clean a _ ha
              (by intro c r hcr; injection hcr with h1 _; subst h1; decide)]
            have hstopc : serializeNodes ccs ++ ('<' :: '/' :: (tc :: (t' ++ ('>' ::
                (tl ++ (serializeNodes cs' ++ rest)))))) = [] ∨
                ∃ r, serializeNodes ccs ++ ('<' :: '/' :: (tc :: (t' ++ ('>' ::
                  (tl ++ (serializeNodes cs' ++ rest)))))) = '<' :: r :=
              serializeNodes_stop ccs _ (Or.inr ⟨_, rfl⟩)
            have hdw2 := takeWhile_append_all isNameChar (tc :: t')
              ('>' :: (tl ++ (serializeNodes cs' ++ rest))) htne.2
              (by intro c r hcr; injection hcr with h1 _; subst h1; decide)
            simp only [List.cons_append] at hdw2
            have hlen2 : (serializeNodes ccs ++ ('<' :: '/' :: (tc :: (t' ++ ('>' ::
                (tl ++ (serializeNodes cs' ++ rest))))))).length < fuel ∧
                (serializeNodes cs' ++ rest).length < fuel := by
              have h1 : serializeNodes
                  (XNodes.cons (XNode.elem (tc :: t') a tx ccs tl) cs')
                  = serializeNode (XNode.elem (tc :: t') a tx ccs tl)
                    ++ serializeNodes cs' := rfl
              rw [h1] at hlen
              simp only [serializeNode, hsc, Bool.false_eq_true, if_false,
                escText_clean tl htl, escText_clean tx htx, List.cons_append,
                List.append_assoc, List.length_append, List.length_cons] at hlen
              constructor <;>
                (simp only [List.length_append, List.length_cons]; omega)
            simp only [parseText_clean tx _ htx hstopc,
              ih ccs ('<' :: '/' :: (tc :: (t' ++ ('>' ::
                  (tl ++ (serializeNodes cs' ++ rest)))))) hccs hlen2.1
                (Or.inr ⟨_, rfl⟩),
              hdw2.1, hdw2.2, eq_self_iff_true, if_true,
              parseText_clean tl _ htl hstop2,
              ih cs' rest hcs' hlen2.2 hstop]

theorem parseDoc_serializeNode (t : XNode) (hc : cleanOf t = true)
    (hts : (XNode.tail t).all isXmlSpace = true) :
    parseDoc (serializeNode t) = some (withTail t []) := by
  match t with
  | .elem tg a tx cs tl =>
    have htg : tagOk tg = true := by
      simp only [cleanOf, Bool.and_eq_true] at hc
      exact hc.1.1.1.1
    have htne : tg.isEmpty = false ∧ tg.all isNameChar = true := by
      simp only [tagOk, Bool.and_eq_true, Bool.not_eq_true'] at htg
      exact htg
    match tg, htne with
    | tc :: tg', htne =>
      have htcname : isNameChar tc = true := by
        have := htne.2
        simp only [List.all_cons, Bool.and_eq_true] at this
        exact this.1
      have htcbang : ('!' == tc) = false := by
        rw [beq_eq_false_iff_ne]
        intro hx
        rw [← hx] at htcname
        exact absurd htcname (by decide)
      have hpre : (chars "<!DOCTYPE html>\n").isPrefixOf
          (serializeNode (.elem (tc :: tg') a tx cs tl)) = false := by
        simp only [serializeNode, List.cons_append, List.append_assoc]
        exact isPrefixOf_doctype_false tc htcbang _
      rw [parseDoc]
      simp only [hpre, Bool.false_eq_true, if_false]
      have hser : serializeNode (.elem (tc :: tg') a tx cs tl) =
          serializeNodes (.cons (.elem (tc :: tg') a tx cs tl) .nil) ++ [] := by
        simp [serializeNodes]
      rw [hser, parseItems_ser _ _ [] (by simp [cleanXs, hc])
        (by simp) (Or.inl rfl)]
      simp only [XNode.tail] at hts
      simp only [XNode.tail, hts, if_true]

/-- C2 counterexample: with threshold "2" (K = 2) the fragment "abcdef" of
length 6 > 2 is abbreviated to "ab[...]", whose length is 7, not K + 3 = 5,
and which does not end with the three-character ellipsis "...". -/
theorem abbreviate_length_counterexample :
    (abbreviate_footnotes [chars "abcdef"] (chars "2")).fst = [chars "ab[...]"]
    ∧ (chars "ab[...]").length = 7
    ∧ ¬ (chars "ab[...]").length = 2 + 3
    ∧ (chars "...").isSuffixOf (chars "ab[...]") = false := by
  decide

/-- C2 amended: for a digit-string threshold of value K, every fragment
longer than K is truncated to its first K characters with "[...]" appended,
giving length exactly K + 5 and the suffix "[...]"; every fragment of length
at most K is unchanged, and no warning is emitted. -/
theorem abbreviate_footnotes_spec (fs : List Chars) (num : Chars) (K : Nat)
    (hd : pyIsDigit num = true) (hK : digitsToNat num = K) :
    (abbreviate_footnotes fs num).fst =
      fs.map (fun f => if K < f.length then f.take K ++ abbrevMark else f)
    ∧ (abbreviate_footnotes fs num).snd = []
    ∧ ∀ f ∈ fs,
        (K < f.length →
          (f.take K ++ abbrevMark).length = K + 5
          ∧ abbrevMark.isSuffixOf (f.take K ++ abbrevMark) = true)
        ∧ (f.length ≤ K → (if K < f.length then f.take K ++ abbrevMark else f) = f) := by
  have hne : num ≠ [] := by
    intro h
    rw [h] at hd
    simp [pyIsDigit] at hd
  refine ⟨?_, ?_, ?_⟩
  · simp [abbreviate_footnotes, hne, hd, hK]
  · simp [abbreviate_footnotes, hne, hd]
  · intro f _
    constructor
    · intro hlen
      constructor
      · have : (f.take K).length = K := by
          rw [List.length_take]
          omega
        simp [List.length_append, this, abbrevMark, chars]
      · exact List.isSuffixOf_iff_suffix.mpr (List.suffix_append _ _)
    · intro hle
      have : ¬ K < f.length := by omega
      simp [this]

/-- Witness for `abbreviate_footnotes_spec` at threshold "3" on the fragments
"abcde" (abbreviated) and "ab" (kept). -/
theorem abbreviate_footnotes_spec_witness :
    (abbreviate_footnotes [chars "abcde", chars "ab"] (chars "3")).fst =
      [chars "abcde", chars "ab"].map
        (fun f => if 3 < f.length then f.take 3 ++ abbrevMark else f)
    ∧ (abbreviate_footnotes [chars "abcde", chars "ab"] (chars "3")).snd = []
    ∧ ∀ f ∈ [chars "abcde", chars "ab"],
        (3 < f.length →
          (f.take 3 ++ abbrevMark).length = 3 + 5
          ∧ abbrevMark.isSuffixOf (f.take 3 ++ abbrevMark) = true)
        ∧ (f.length ≤ 3 → (if 3 < f.length then f.take 3 ++ abbrevMark else f) = f) :=
  abbreviate_footnotes_spec [chars "abcde", chars "ab"] (chars "3") 3
    (by decide) (by decide)

/-! ### Pretty printing is plain serialization of the annotated tree -/

theorem textOk_indent (k : Nat) : textOk (indentStr k) = true := by
  rw [textOk, List.all_eq_true]
  intro c hc
  rw [List.eq_of_mem_replicate hc]
  decide

theorem textOk_nl_indent (k : Nat) : textOk (chars "\n" ++ indentStr k) = true := by
  rw [textOk, List.all_append]
  have h1 := textOk_indent k
  rw [textOk] at h1
  rw [h1]
  decide

theorem tail_withTail (t : XNode) (s : Chars) : XNode.tail (withTail t s) = s := by
  match t with
  | .elem tg a tx cs tl => rfl

theorem withTail_withTail (t : XNode) (s s2 : Chars) :
    withTail (withTail t s) s2 = withTail t s2 := by
  match t with
  | .elem tg a tx cs tl => rfl

theorem withTail_eq_self (t : XNode) (h : XNode.tail t = []) : withTail t [] = t := by
  match t with
  | .elem tg a tx cs tl =>
    simp only [XNode.tail] at h
    rw [withTail, h]

theorem serializeNode_withTail (t : XNode) (s : Chars) (h : XNode.tail t = []) :
    serializeNode (withTail t s) = serializeNode t ++ escText s := by
  match t with
  | .elem tg a tx cs tl =>
    simp only [XNode.tail] at h
    subst h
    simp only [withTail, serializeNode]
    have h0 : escText ([] : Chars) = [] := rfl
    rw [h0, List.append_nil]

theorem cleanOf_withTail (t : XNode) (s : Chars) (hc : cleanOf t = true)
    (hs : textOk s = true) : cleanOf (withTail t s) = true := by
  match t with
  | .elem tg a tx cs tl =>
    simp only [withTail, cleanOf, Bool.and_eq_true] at hc ⊢
    exact ⟨⟨⟨⟨hc.1.1.1.1, hc.1.1.1.2⟩, hc.1.1.2⟩, hs⟩, hc.2⟩

theorem tail_annotate (L : Nat) (t : XNode) :
    XNode.tail (annotate L t) = XNode.tail t := by
  match t with
  | .elem tg a tx cs tl =>
    rw [annotate]
    split <;> rfl

mutual
theorem cleanOf_annotate : ∀ (L : Nat) (t : XNode), cleanOf t = true →
    cleanOf (annotate L t) = true
  | L, .elem tg a tx cs tl => by
    intro hc
    rw [annotate]
    by_cases h : (tx.isEmpty && !(anyTail cs) && !(cs.isNil)) = true
    · rw [if_pos h]
      simp only [cleanOf, Bool.and_eq_true] at hc ⊢
      exact ⟨⟨⟨⟨hc.1.1.1.1, hc.1.1.1.2⟩, textOk_nl_indent (L + 1)⟩, hc.1.2⟩,
        cleanXs_annotateKids (L + 1) L cs hc.2⟩
    · rw [if_neg h]; exact hc

theorem cleanXs_annotateKids : ∀ (L P : Nat) (cs : XNodes), cleanXs cs = true →
    cleanXs (annotateKids L P cs) = true
  | _, _, .nil => by intro h; exact h
  | L, P, .cons c cs => by
    intro h
    simp only [cleanXs, Bool.and_eq_true] at h
    rw [annotateKids]
    simp only [cleanXs, Bool.and_eq_true]
    exact ⟨cleanOf_withTail _ _ (cleanOf_annotate L c h.1) (textOk_nl_indent _),
      cleanXs_annotateKids L P cs h.2⟩
end

mutual
theorem prettyNode_false_eq : ∀ (L : Nat) (t : XNode),
    prettyNode L false t ++ escText (XNode.tail t) = serializeNode t
  | L, .elem tg a tx cs tl => by
    have ih := prettyInline_eq (L + 1) cs
    by_cases hsc : (tx.isEmpty && cs.isNil) = true
    · simp only [prettyNode, serializeNode, XNode.tail, hsc, if_true,
        Bool.false_and, Bool.false_eq_true, if_false]
    · simp only [prettyNode, serializeNode, XNode.tail, hsc,
        Bool.false_eq_true, if_false, Bool.false_and, ih,
        List.cons_append, List.append_assoc]

theorem prettyInline_eq : ∀ (L : Nat) (cs : XNodes),
    prettyInlineChildren L cs = serializeNodes cs
  | _, .nil => rfl
  | L, .cons c cs => by
    have ih1 := prettyNode_false_eq L c
    have ih2 := prettyInline_eq L cs
    rw [prettyInlineChildren, serializeNodes, ih2, ← ih1, List.append_assoc]
end

theorem not_isEmpty_false (l : Chars) (h : (!l.isEmpty) = false) : l = [] := by
  apply isEmpty_eq_nil
  cases he : l.isEmpty with
  | false => rw [he] at h; exact absurd h (by decide)
  | true => rfl

theorem prettyNode_true_inline (L : Nat) (tg : Chars)
    (a : List (Chars × Chars)) (tx : Chars) (cs : XNodes) (tl : Chars)
    (h : (tx.isEmpty && !(anyTail cs)) = false) :
    prettyNode L true (.elem tg a tx cs tl)
      = prettyNode L false (.elem tg a tx cs tl) := by
  simp only [prettyNode, Bool.true_and, Bool.false_and, h,
    Bool.false_eq_true, if_false]

mutual
theorem prettyNode_true_eq : ∀ (L : Nat) (t : XNode),
    prettyNode L true t ++ escText (XNode.tail t) = serializeNode (annotate L t)
  | L, .elem tg a tx .nil tl => by
    have hann : (tx.isEmpty && !(anyTail .nil) && !(XNodes.isNil .nil)) = false := by
      simp [anyTail, XNodes.isNil]
    rw [annotate]
    simp only [hann, Bool.false_eq_true, if_false]
    cases hte : tx.isEmpty with
    | true =>
      have htx := isEmpty_eq_nil tx hte
      subst htx
      have hsc : (List.isEmpty ([] : Chars) && XNodes.isNil XNodes.nil) = true := rfl
      simp only [prettyNode, serializeNode, XNode.tail, hsc, if_true]
    | false =>
      rw [prettyNode_true_inline L tg a tx .nil tl (by simp [hte]),
        prettyNode_false_eq L (.elem tg a tx .nil tl)]
  | L, .elem tg a tx (.cons c cs') tl => by
    cases hte : tx.isEmpty with
    | false =>
      have hann : (tx.isEmpty && !(anyTail (XNodes.cons c cs'))
          && !(XNodes.isNil (XNodes.cons c cs'))) = false := by simp [hte]
      rw [annotate]
      simp only [hann, Bool.false_eq_true, if_false]
      rw [prettyNode_true_inline L tg a tx (.cons c cs') tl (by simp [hte]),
        prettyNode_false_eq L (.elem tg a tx (.cons c cs') tl)]
    | true =>
      cases hat : anyTail (.cons c cs') with
      | true =>
        have hann : (tx.isEmpty && !(anyTail (XNodes.cons c cs'))
            && !(XNodes.isNil (XNodes.cons c cs'))) = false := by simp [hte, hat]
        rw [annotate]
        simp only [hann, Bool.false_eq_true, if_false]
        rw [prettyNode_true_inline L tg a tx (.cons c cs') tl (by simp [hte, hat]),
          prettyNode_false_eq L (.elem tg a tx (.cons c cs') tl)]
      | false =>
        have hkids := prettyFmtKids_eq (L + 1) L c cs' hat
        have hann : (tx.isEmpty && !(anyTail (XNodes.cons c cs'))
            && !(XNodes.isNil (XNodes.cons c cs'))) = true := by
          simp [hte, hat, XNodes.isNil]
        rw [annotate]
        simp only [hann, if_true]
        have hsc : (tx.isEmpty && XNodes.isNil (XNodes.cons c cs'))
            = false := by simp [XNodes.isNil]
        have hfmt : (true && tx.isEmpty && !(anyTail (XNodes.cons c cs')))
            = true := by simp [hte, hat]
        have hsc2 : ((chars "\n" ++ indentStr (L + 1)).isEmpty &&
            XNodes.isNil (annotateKids (L + 1) L (XNodes.cons c cs')))
            = false := rfl
        simp only [prettyNode, serializeNode, XNode.tail, hsc, hfmt, hsc2,
          Bool.false_eq_true, if_false, if_true]
        rw [escText_clean _ (textOk_nl_indent (L + 1))]
        have hkids2 : ∀ r : Chars,
            prettyFmtChildren (L + 1) (XNodes.cons c cs')
              ++ (indentStr L ++ r) =
            indentStr (L + 1)
              ++ (serializeNodes (annotateKids (L + 1) L (XNodes.cons c cs'))
                ++ r) := by
          intro r
          rw [← List.append_assoc, hkids, List.append_assoc]
        simp only [List.cons_append, List.append_assoc, List.nil_append]
        rw [hkids2]
termination_by L t => sizeOf t
decreasing_by all_goals simp_wf <;> omega

theorem prettyFmtKids_eq : ∀ (L P : Nat) (c : XNode) (cs : XNodes),
    anyTail (.cons c cs) = false →
    prettyFmtChildren L (.cons c cs) ++ indentStr P =
      indentStr L ++ serializeNodes (annotateKids L P (.cons c cs))
  | L, P, c, .nil => by
    intro hat
    rw [anyTail] at hat
    simp only [anyTail, Bool.or_false] at hat
    have hc0 : XNode.tail c = [] := not_isEmpty_false _ hat
    have ihc := prettyNode_true_eq L c
    rw [hc0] at ihc
    have hpc : prettyNode L true c = serializeNode (annotate L c) := by
      have h0 : escText ([] : Chars) = [] := rfl
      rw [h0, List.append_nil] at ihc
      exact ihc
    rw [prettyFmtChildren, prettyFmtChildren, annotateKids, annotateKids]
    simp only [XNodes.isNil, if_true]
    rw [serializeNodes, serializeNodes,
      serializeNode_withTail _ _ (by rw [tail_annotate]; exact hc0),
      escText_clean _ (textOk_nl_indent P), hpc]
    simp only [List.append_nil, List.append_assoc, List.nil_append]
  | L, P, c, .cons c2 cs2 => by
    intro hat
    rw [anyTail] at hat
    simp only [Bool.or_eq_false_iff] at hat
    have hc0 : XNode.tail c = [] := not_isEmpty_false _ hat.1
    have ih := prettyFmtKids_eq L P c2 cs2 hat.2
    have ihc := prettyNode_true_eq L c
    rw [hc0] at ihc
    have hpc : prettyNode L true c = serializeNode (annotate L c) := by
      have h0 : escText ([] : Chars) = [] := rfl
      rw [h0, List.append_nil] at ihc
      exact ihc
    rw [prettyFmtChildren, annotateKids]
    simp only [XNodes.isNil, Bool.false_eq_true, if_false]
    rw [serializeNodes,
      serializeNode_withTail _ _ (by rw [tail_annotate]; exact hc0),
      escText_clean _ (textOk_nl_indent L), hpc]
    simp only [List.append_assoc]
    rw [← ih]
termination_by L P c cs => 1 + sizeOf c + sizeOf cs
decreasing_by all_goals simp_wf <;> omega
end

theorem prettyNode_true_annotate (L : Nat) (t : XNode) :
    prettyNode L true (annotate L t) = prettyNode L true t := by
  match t with
  | .elem tg a tx cs tl =>
    rw [annotate]
    by_cases hcond : (tx.isEmpty && !(anyTail cs) && !(cs.isNil)) = true
    · rw [if_pos hcond]
      have h1 := prettyNode_false_eq L
        (.elem tg a (chars "\n" ++ indentStr (L + 1)) (annotateKids (L + 1) L cs) tl)
      have h2 := prettyNode_true_eq L (.elem tg a tx cs tl)
      simp only [annotate, hcond, if_true] at h2
      simp only [XNode.tail] at h1 h2
      have h3 := prettyNode_true_inline L tg a
        (chars "\n" ++ indentStr (L + 1)) (annotateKids (L + 1) L cs) tl rfl
      rw [h3]
      exact List.append_cancel_right (h1.trans h2.symm)
    · rw [if_neg hcond]

theorem prettyRoot_eq (t : XNode) (htl : XNode.tail t = []) :
    prettyRoot t = serializeNode (withTail (annotate 0 t) (chars "\n")) := by
  rw [prettyRoot, serializeNode_withTail _ _ (by rw [tail_annotate]; exact htl),
    ← prettyNode_true_eq 0 t, htl]
  have e1 : escText ([] : Chars) = [] := rfl
  have e2 : escText (chars "\n") = chars "\n" := rfl
  rw [e1, e2]

/-! ### Theorems for C10 -/

/-- A pipeline-shaped document (body, grid containers, a paragraph) whose
paragraph text holds an ampersand. -/
def c10bad : XNode :=
  .elem (chars "body") [] []
    (xnodes [.elem (chars "div") [(chars "class", chars "gridContainer")] []
      (xnodes [.elem (chars "div") [(chars "class", chars "mainGrid")] []
        (xnodes [.elem (chars "p") [] (chars "a & b") .nil []]) []]) []]) []

/-- A minimal element standing in for the style, navigation and script
blocks in `assemble_html` (unused when all the flags are off). -/
def c10aux : XNode := .elem (chars "div") [] [] .nil []

/-- A clean document exercising attributes, text, a self-closing child and
tail text, used to witness the amended round-trip theorem. -/
def c10clean : XNode :=
  .elem (chars "body") [] []
    (xnodes [.elem (chars "div") [(chars "class", chars "mainGrid")]
      (chars "hi there")
      (xnodes [.elem (chars "br") [] [] .nil (chars " tail")]) []]) []

set_option maxRecDepth 8000 in
/-- C10, counterexample: the assembler pretty-prints (indentation and
newlines as `pretty_print=True` emits them) and escapes the paragraph
ampersand as `&amp;`, but `escape_unescape` then unescapes the whole
assembled output, leaving a bare `&` in the final text; that text is no
longer well-formed XML, so re-parsing it fails and no re-serialization —
let alone a byte-identical one — exists. Stated over the embedded
`assemble_html` (body-only export, no extras) and `escape_unescape`. -/
theorem roundtrip_counterexample :
    assemble_html false true false c10aux c10aux c10bad c10aux false
      = .ok (prettyRoot c10bad)
    ∧ escape_unescape (prettyRoot c10bad)
      = chars "<body>\n  <div class=\"gridContainer\">\n    <div class=\"mainGrid\">\n      <p>a & b</p>\n    </div>\n  </div>\n</body>\n"
    ∧ parseDoc (escape_unescape (prettyRoot c10bad)) = none :=
  ⟨rfl, rfl, rfl⟩

/-- C10 (amended): for documents whose element text, tails and attribute
values are free of markup characters (so serialization introduces no
entities), with no tail on the root and no `<code>` region in the
assembled output, the body-only assembled output is the pretty-printed
serialization, `escape_unescape` leaves it byte-for-byte unchanged,
re-parsing yields exactly the whitespace-annotated tree the pretty printer
encodes, and re-serializing that re-parse — whose whitespace text disables
further pretty formatting — reproduces the output byte-identically. -/
theorem serialize_roundtrip (t cssX navG jsX : XNode)
    (hc : cleanOf t = true) (htl : XNode.tail t = [])
    (hcode : strContains (prettyRoot t) (chars "<code>") = false) :
    assemble_html false true false cssX navG t jsX false = .ok (prettyRoot t)
    ∧ escape_unescape (prettyRoot t) = prettyRoot t
    ∧ parseDoc (escape_unescape (prettyRoot t)) = some (annotate 0 t)
    ∧ ∀ t2, parseDoc (escape_unescape (prettyRoot t)) = some t2 →
        escape_unescape (prettyRoot t2) = prettyRoot t := by
  have hW : cleanOf (withTail (annotate 0 t) (chars "\n")) = true :=
    cleanOf_withTail _ _ (cleanOf_annotate 0 t hc) (by decide)
  have hamp : '&' ∉ prettyRoot t := by
    rw [prettyRoot_eq t htl]
    exact amp_not_mem_of_all _ (ampOk_serializeNode _ hW)
  have h2 : escape_unescape (prettyRoot t) = prettyRoot t := by
    rw [escape_unescape, unescape_noAmp _ hamp, reEscapeCode_noCode _ hcode]
  have h3 : parseDoc (escape_unescape (prettyRoot t)) = some (annotate 0 t) := by
    rw [h2, prettyRoot_eq t htl,
      parseDoc_serializeNode _ hW (by rw [tail_withTail]; decide),
      withTail_withTail, withTail_eq_self _ (by rw [tail_annotate]; exact htl)]
  refine ⟨rfl, h2, h3, ?_⟩
  intro t2 ht2
  rw [h3] at ht2
  injection ht2 with h4
  rw [← h4, prettyRoot, prettyRoot, prettyNode_true_annotate, tail_annotate]
  exact h2

/-- Witness for `serialize_roundtrip` on `c10clean`: the cleanliness,
root-tail and no-code hypotheses hold by evaluation and the pretty-printed
round trip goes through. -/
theorem serialize_roundtrip_witness :
    cleanOf c10clean = true
    ∧ XNode.tail c10clean = []
    ∧ strContains (prettyRoot c10clean) (chars "<code>") = false
    ∧ (assemble_html false true false c10aux c10aux c10clean c10aux false
        = .ok (prettyRoot c10clean)
      ∧ escape_unescape (prettyRoot c10clean) = prettyRoot c10clean
      ∧ parseDoc (escape_unescape (prettyRoot c10clean)) = some (annotate 0 c10clean)
      ∧ ∀ t2, parseDoc (escape_unescape (prettyRoot c10clean)) = some t2 →
          escape_unescape (prettyRoot t2) = prettyRoot c10clean) :=
  ⟨by decide, by decide, by decide,
    serialize_roundtrip c10clean c10aux c10aux c10aux
      (by decide) (by decide) (by decide)⟩

end SciDocx2Web
